import Mathlib

/-
Verification development for the vk-clips pipeline (src/vk_worker.py, src/main.py).
The Python code is shallowly embedded: strings are Lean strings (character lists
where word-level reasoning is needed), dictionaries become structures, remote
calls become environment records of their outcomes, and the asyncio interleaving
of the download/transform stage becomes an explicit schedule over per-item step
programs.
-/

namespace VkClips

/-! ### Python string helpers (vk_worker.build_description, lines 199-220) -/

/-- Accumulator for Python `str.split()`: `acc` holds the current in-progress
word reversed; whitespace flushes it. -/
def wordsAux : List Char → List Char → List (List Char)
  | [], acc => if acc.isEmpty then [] else [acc.reverse]
  | c :: cs, acc =>
    if c.isWhitespace then
      if acc.isEmpty then wordsAux cs [] else acc.reverse :: wordsAux cs []
    else wordsAux cs (c :: acc)

/-- Python `s.split()` with no argument: maximal whitespace-free words. -/
def pyWords (s : List Char) : List (List Char) := wordsAux s []

/-- Dedup worker: keep an element when it has not been seen yet. -/
def dedupFirstAux {α : Type} [DecidableEq α] (seen : List α) : List α → List α
  | [] => []
  | a :: l =>
    if a ∈ seen then dedupFirstAux seen l
    else a :: dedupFirstAux (a :: seen) l

/-- Python `dict.fromkeys(parts)` key order: deduplicate keeping the first
occurrence of each element. -/
def dedupFirst {α : Type} [DecidableEq α] (l : List α) : List α :=
  dedupFirstAux [] l

/-- Hashtag extraction, line 207: `[word for word in val.split() if
word.startswith("#")]`. -/
def hashtagTokens (s : List Char) : List (List Char) :=
  (pyWords s).filter (fun w => w.head? = some '#')

/-- A candidate item as consumed by the worker: the four text fields probed by
`build_description` plus `owner_id` and `id`. -/
structure Item where
  description : Option String
  title : Option String
  caption : Option String
  text : Option String
  owner_id : Int
  id : Int
deriving DecidableEq

/-- The promotional string inserted at position 0 (line 211), byte-identical to
the default value of the `fallback` parameter (line 200). -/
def promoStr : String := "–ü–û–î–ü–ò–®–ò–¢–ï–°–¨ –ù–ê –õ–£–ß–®–ò–ï –ú–ï–ú–´"

/-- The join separator of line 219. -/
def sepStr : String := " ‚Äî "

/-- The separator's inner word: `sepStr` is a space, these characters, a
space. -/
def midTok : List Char := "‚Äî".data

/-- Shape of every token produced by `hashtagTokens`: a nonempty
whitespace-free word starting with the hash marker. -/
def goodTok (w : List Char) : Prop :=
  w ≠ [] ∧ (∀ c ∈ w, c.isWhitespace = false) ∧ w.head? = some '#'

/-- The generated tag of line 216: `f"#vkclips #top #video{owner_id}_{vid}"`. -/
def vkTag (owner_id vid : Int) : String :=
  "#vkclips #top #video" ++ toString owner_id ++ "_" ++ toString vid

/-- One iteration of the `for key in (...)` loop, lines 203-208: a field
contributes its hashtag words when it is a string with non-blank content. -/
def fieldHashtags : Option String → List (List Char)
  | none => []
  | some val =>
    if val.data.any (fun c => !c.isWhitespace) then hashtagTokens val.data else []

/-- The `parts` list right before the join: promo first (line 211), the four
fields' hashtags in probe order, the generated tag last (line 216). -/
def descParts (item : Item) : List (List Char) :=
  promoStr.data ::
    (fieldHashtags item.description ++ fieldHashtags item.title ++
      fieldHashtags item.caption ++ fieldHashtags item.text) ++
    [(vkTag item.owner_id item.id).data]

/-- The joined description before the `[:999]` truncation. -/
def rawDescription (item : Item) : List Char :=
  List.intercalate sepStr.data (dedupFirst (descParts item))

/-- `VKWorker.build_description` with an explicit `fallback` argument. The
`if parts else fallback` branch of line 219 is kept although `parts` always
holds at least the promo element. -/
def build_description_with (item : Item) (fallback : String) : String :=
  let parts := descParts item
  let desc := if parts.isEmpty then fallback.data
              else List.intercalate sepStr.data (dedupFirst parts)
  String.mk (desc.take 999)

/-- `build_description` at its default `fallback`, as called by `run_cycle`. -/
def build_description (item : Item) : String :=
  build_description_with item promoStr

/-- An item whose sole text content is `s`, used to feed the builder its own
output back through the `text` field with unchanged owner and item ids. -/
def refeed (s : String) (o v : Int) : Item :=
  { description := none, title := none, caption := none, text := some s,
    owner_id := o, id := v }

/-! ### The run_cycle state (vk_worker.run_cycle, lines 234-345) -/

/-- Values the source ever assigns to `state["stage"]`. -/
inductive Stage
  | init
  | fetch_top
  | done
deriving DecidableEq

/-- Values the source ever assigns to a record's `status`. -/
inductive Status
  | download_failed
  | uniqueize_failed
  | uniqueized
  | published
  | upload_failed
deriving DecidableEq

/-- The entries of `state["messages"]`, one constructor per `append` site, with
the data interpolated into the source's f-string kept as payload. -/
inductive Msg
  | cleaned
  | fetchEmpty
  | found (n : Nat)
  | downloading (idx total : Nat) (link : String)
  | dlFailed (err : Option String)
  | dlDone (path : String)
  | uniquizing (path : String)
  | uniqFailed (err : Option String)
  | uniqDone (path : String)
  | uploading (idx total : Nat) (path : String)
  | publishOk (path : String)
  | publishFailed (err : String)
  | doneMsg
deriving DecidableEq

/-- The `state` dict of lines 235-245 (its `items` key is never written after
creation and is omitted). -/
structure RunState where
  stage : Stage
  total : Nat
  downloaded : Nat
  uniqueized : Nat
  uploaded : Nat
  published : Nat
  failed : Nat
  messages : List Msg
deriving DecidableEq

/-- Outcome of `download_one` for one item: `(path, meta, err)`; the branch at
line 275 treats `err or not path` as failure. `metaTitle` is `meta.get("title")`. -/
structure DlResult where
  path : Option String
  metaTitle : Option String
  err : Option String
deriving DecidableEq

/-- Outcome of `uniqueize_one` for one item: `(unique_path, err)`; line 289
treats `unique_err or not unique_path` as failure. -/
structure UniqResult where
  path : Option String
  err : Option String
deriving DecidableEq

/-- Provider outcomes for one item's publish-protocol calls. `create` is indexed
by attempt number so that retry policies are expressible; the source performs
exactly one attempt (attempt 0). `edit` receives the description argument.
The group and non-group call variants of lines 313-328 have identical error
behaviour and share one record. -/
structure PubEnv where
  create : Nat → Except String Unit
  upload : Except String Unit
  edit : String → Except String Unit
  publish : Except String Unit

/-- All external outcomes for one candidate item. -/
structure ItemEnv where
  dl : DlResult
  uniq : UniqResult
  pub : PubEnv

/-- Failure test of line 275: `if err or not path`. -/
def DlResult.failed (d : DlResult) : Bool := d.err.isSome || d.path.isNone

/-- Failure test of line 289: `if unique_err or not unique_path`. -/
def UniqResult.failed (u : UniqResult) : Bool := u.err.isSome || u.path.isNone

/-- One record of the `enriched` list (lines 278, 292, 296). `pubEnv` is ghost
instrumentation carrying the item's provider outcomes into the publish loop. -/
structure Rec where
  item : Item
  link : String
  path : Option String
  status : Status
  err : Option String
  title : String
  pubEnv : PubEnv

/-- Instrumented counts of external calls made during a cycle. -/
structure Calls where
  dl : Nat
  uniq : Nat
  create : Nat
  upload : Nat
  edit : Nat
  publish : Nat
deriving DecidableEq

def noCalls : Calls := ⟨0, 0, 0, 0, 0, 0⟩

/-- Python `a or b` on an optional string against a string default. -/
def pyOrStr : Option String → String → String
  | some s, b => if s = "" then b else s
  | none, b => b

/-- Line 270: `item.get("title") or item.get("description") or f"video{..}_{..}"`. -/
def titleOf (item : Item) : String :=
  pyOrStr item.title
    (pyOrStr item.description
      ("video" ++ toString item.owner_id ++ "_" ++ toString item.id))

/-- `VKWorker.link_from_item`, lines 222-224. -/
def link_from_item (item : Item) : String :=
  "https://vk.com/video" ++ toString item.owner_id ++ "_" ++ toString item.id

/-- Lines 284-285: `if meta and meta.get("title"): item = {**item, "title": ...}`. -/
def updatedItem (item : Item) (d : DlResult) : Item :=
  match d.metaTitle with
  | some t => if t = "" then item else { item with title := some t }
  | none => item

/-! ### Phase 1: Retrieval+Transform under the semaphore (lines 264-300)

Each `process_item` task is a short program of atomic blocks separated by the
source's `await` points; an execution of the stage is a schedule interleaving
these programs. `acquire`/`release` delimit the `async with semaphore` region
(the `return` of line 280 also releases). -/

inductive Step
  | acquire
  | start
  | dlFail
  | dlOk
  | uniqStep
  | release
deriving DecidableEq

/-- The per-item program determined by the item's download outcome. -/
def progOf (e : ItemEnv) : List Step :=
  if e.dl.failed then [.acquire, .start, .dlFail, .release]
  else [.acquire, .start, .dlOk, .uniqStep, .release]

/-- In-flight state of the Retrieval+Transform stage. `ctx` holds each item's
1-based index, the item and its environment; `progs` the remaining program of
each task; `snaps` the ordered progress-callback snapshots so far; `active`
the number of tasks currently holding a semaphore permit. -/
structure Machine where
  rs : RunState
  enriched : List Rec
  active : Nat
  ctx : List (Nat × Item × ItemEnv)
  progs : List (List Step)
  snaps : List RunState
  calls : Calls

/-- Record a progress snapshot (`await progress_cb(state)`). -/
def pushSnap (m : Machine) : Machine := { m with snaps := m.snaps ++ [m.rs] }

/-- Execute one atomic block of item `idx`'s task. -/
def execStep (m : Machine) (idx : Nat) (item : Item) (e : ItemEnv) :
    Step → Machine
  | .acquire => { m with active := m.active + 1 }
  | .start =>
    pushSnap { m with rs := { m.rs with
      messages := m.rs.messages ++
        [.downloading idx m.rs.total (link_from_item item)] } }
  | .dlFail =>
    let r : Rec :=
      { item := item, link := link_from_item item, path := none,
        status := .download_failed, err := e.dl.err, title := titleOf item,
        pubEnv := e.pub }
    let rs2 :=
      { m.rs with
        failed := m.rs.failed + 1,
        messages := m.rs.messages ++ [.dlFailed e.dl.err] }
    pushSnap
      { m with
        rs := rs2, enriched := m.enriched ++ [r],
        calls := { m.calls with dl := m.calls.dl + 1 } }
  | .dlOk =>
    let p := e.dl.path.getD ""
    let rs2 :=
      { m.rs with
        downloaded := m.rs.downloaded + 1,
        messages := m.rs.messages ++ [.dlDone p, .uniquizing p] }
    pushSnap
      { m with rs := rs2, calls := { m.calls with dl := m.calls.dl + 1 } }
  | .uniqStep =>
    let item2 := updatedItem item e.dl
    let link := link_from_item item
    let calls2 := { m.calls with uniq := m.calls.uniq + 1 }
    if e.uniq.failed then
      let r : Rec :=
        { item := item2, link := link, path := none,
          status := .uniqueize_failed, err := e.uniq.err,
          title := titleOf item, pubEnv := e.pub }
      let rs2 :=
        { m.rs with
          failed := m.rs.failed + 1,
          messages := m.rs.messages ++ [.uniqFailed e.uniq.err] }
      pushSnap
        { m with rs := rs2, enriched := m.enriched ++ [r], calls := calls2 }
    else
      let up := e.uniq.path.getD ""
      let r : Rec :=
        { item := item2, link := link, path := some up,
          status := .uniqueized, err := none, title := titleOf item,
          pubEnv := e.pub }
      let rs2 :=
        { m.rs with
          uniqueized := m.rs.uniqueized + 1,
          messages := m.rs.messages ++ [.uniqDone up] }
      pushSnap
        { m with rs := rs2, enriched := m.enriched ++ [r], calls := calls2 }
  | .release => { m with active := m.active - 1 }

/-- Let task `i` run its next atomic block, if it has one. -/
def stepItem (m : Machine) (i : Nat) : Machine :=
  match m.progs[i]?, m.ctx[i]? with
  | some (s :: rest), some (idx, item, e) =>
    let m2 := execStep m idx item e s
    { m2 with progs := m2.progs.set i rest }
  | _, _ => m

/-- Run a schedule: a list of task indices, each entry letting that task run
one atomic block. -/
def applySched (m : Machine) (sched : List Nat) : Machine :=
  sched.foldl stepItem m

def applyN {α : Type} (f : α → α) : Nat → α → α
  | 0, a => a
  | n + 1, a => applyN f n (f a)

/-- Run every task to completion in index order; this models the
`await asyncio.gather(*tasks)` barrier of line 300 (a schedule followed by
`flushAll` covers every interleaving prefix). -/
def flushAll (m : Machine) : Machine :=
  (List.range m.progs.length).foldl
    (fun acc i => applyN (fun x => stepItem x i) ((acc.progs.getD i []).length) acc)
    m

/-! ### Phase 2: the sequential publish loop (lines 302-340) -/

/-- Result of the four-call publish protocol for one item, lines 312-328:
`shortVideo.create`, byte upload, settle sleep, `shortVideo.edit`,
`shortVideo.publish`, the first failure escaping to the handler. -/
def pubResult (p : PubEnv) (desc : String) : Except String Unit := do
  let _ ← p.create 0
  let _ ← p.upload
  let _ ← p.edit desc
  p.publish

/-- Call counts attempted by one pass of the publish protocol. -/
def pubCalls (p : PubEnv) (desc : String) (c : Calls) : Calls :=
  let c1 := { c with create := c.create + 1 }
  match p.create 0 with
  | .error _ => c1
  | .ok _ =>
    let c2 := { c1 with upload := c1.upload + 1 }
    match p.upload with
    | .error _ => c2
    | .ok _ =>
      let c3 := { c2 with edit := c2.edit + 1 }
      match p.edit desc with
      | .error _ => c3
      | .ok _ => { c3 with publish := c3.publish + 1 }

/-- State threaded through the publish loop. -/
structure P2State where
  rs : RunState
  recsDone : List Rec
  snaps : List RunState
  calls : Calls

/-- One iteration of the `for idx, rec in enumerate(enriched, 1)` loop. Items
without an asset are skipped (line 303); otherwise the protocol runs and the
record is re-labelled `published` or `upload_failed` (lines 330-340). -/
def pubOne (st : P2State) (idx : Nat) (r : Rec) : P2State :=
  match r.path with
  | none => { st with recsDone := st.recsDone ++ [r] }
  | some p =>
    let desc := build_description r.item
    let rs1 :=
      { st.rs with
        messages := st.rs.messages ++ [.uploading idx st.rs.total p] }
    let snaps1 := st.snaps ++ [rs1]
    let calls1 := pubCalls r.pubEnv desc st.calls
    match pubResult r.pubEnv desc with
    | .ok _ =>
      let rs2 :=
        { rs1 with
          uploaded := rs1.uploaded + 1,
          published := rs1.published + 1,
          messages := rs1.messages ++ [.publishOk p] }
      { rs := rs2,
        recsDone := st.recsDone ++ [{ r with status := .published }],
        snaps := snaps1, calls := calls1 }
    | .error e =>
      let rs2 :=
        { rs1 with
          failed := rs1.failed + 1,
          messages := rs1.messages ++ [.publishFailed e] }
      { rs := rs2,
        recsDone :=
          st.recsDone ++ [{ r with status := .upload_failed, err := some e }],
        snaps := snaps1 ++ [rs2], calls := calls1 }

/-- The whole publish loop. -/
def phase2 (st : P2State) (recs : List Rec) : P2State :=
  (recs.enumFrom 1).foldl (fun acc ir => pubOne acc ir.1 ir.2) st

/-! ### The orchestrator (run_cycle, lines 234-345) -/

structure RunResult where
  final : RunState
  snaps : List RunState
  recs : List Rec
  calls : Calls

def initState : RunState :=
  { stage := .init, total := 0, downloaded := 0, uniqueized := 0,
    uploaded := 0, published := 0, failed := 0, messages := [] }

/-- Starting machine for phase 1. -/
def mkMachine (items : List Item) (envs : List ItemEnv) (rs : RunState)
    (snaps : List RunState) : Machine :=
  { rs := rs, enriched := [], active := 0,
    ctx := List.enumFrom 1 (items.zip envs),
    progs := (items.zip envs).map (fun p => progOf p.2),
    snaps := snaps, calls := noCalls }

/-- State after the cleanup message of line 248 (first snapshot, line 249). -/
def rsInit : RunState := { initState with messages := [Msg.cleaned] }

/-- State after `stage = "fetch_top"` (line 252, snapshot line 253). -/
def rsFetch : RunState := { rsInit with stage := Stage.fetch_top }

/-- State after an empty fetch: `total` set to 0 by line 255 and the top-empty
message of line 257, still in stage `fetch_top` (the return at line 259 skips
line 342). -/
def rsEmpty (n : Nat) : RunState :=
  { rsFetch with total := n, messages := rsFetch.messages ++ [Msg.fetchEmpty] }

/-- State after a successful fetch of `n` items (lines 255 and 261). -/
def rsFound (n : Nat) : RunState :=
  { rsFetch with total := n, messages := rsFetch.messages ++ [Msg.found n] }

/-- The three snapshots taken before phase 1 starts (lines 249, 253, 262). -/
def startSnaps (n : Nat) : List RunState := [rsInit, rsFetch, rsFound n]

/-- Machine state at the `asyncio.gather` barrier of line 300: the schedule's
interleaving steps followed by completion of every remaining task. -/
def phase1End (items : List Item) (envs : List ItemEnv) (sched : List Nat) :
    Machine :=
  flushAll (applySched
    (mkMachine items envs (rsFound items.length) (startSnaps items.length))
    sched)

/-- `VKWorker.run_cycle`, parametrised by the fetched items, the external
outcomes for each, and a phase-1 schedule. The empty-fetch early return of
lines 256-259 leaves the stage at `fetch_top`; otherwise phase 1 runs under
the schedule to the gather barrier, phase 2 runs sequentially and lines
342-344 close the cycle. -/
def run_cycle (items : List Item) (envs : List ItemEnv) (sched : List Nat) :
    RunResult :=
  if items.isEmpty then
    { final := rsEmpty items.length,
      snaps := [rsInit, rsFetch, rsEmpty items.length],
      recs := [], calls := noCalls }
  else
    let m1 := phase1End items envs sched
    let st := phase2 ⟨m1.rs, [], m1.snaps, m1.calls⟩ m1.enriched
    let rsF :=
      { st.rs with
        stage := Stage.done,
        messages := st.rs.messages ++ [Msg.doneMsg] }
    { final := rsF, snaps := st.snaps ++ [rsF], recs := st.recsDone,
      calls := st.calls }

/-! ### Semaphore semantics (asyncio.Semaphore(5), lines 265-268)

A schedule is admissible when it only runs tasks that still have steps and
only lets a task `acquire` while fewer than 5 permits are out. -/

/-- Whether task `i` may run its next atomic block in machine `m`:
`asyncio.Semaphore(5)` blocks `acquire` at 5 outstanding permits. -/
def enabledStep (m : Machine) (i : Nat) : Bool :=
  match m.progs[i]? with
  | some (Step.acquire :: _) => m.active < 5
  | some (_ :: _) => true
  | _ => false

/-- Admissible schedules from machine `m`. -/
inductive Sched : Machine → List Nat → Prop
  | nil (m : Machine) : Sched m []
  | cons (m : Machine) (i : Nat) (l : List Nat) :
      enabledStep m i = true → Sched (stepItem m i) l → Sched m (i :: l)

/-- Every machine passed through while running a schedule. -/
def machinesAlong (m : Machine) : List Nat → List Machine
  | [] => [m]
  | i :: l => m :: machinesAlong (stepItem m i) l

/-! ### The downloader (VKWorker._ydl_download / download_one, lines 51-88)

The filesystem is a list of paths; `extract_info(url, download=True)` writes
the extractor's files before the function inspects the metadata. -/

/-- External behaviour of the media extractor for one URL: the reported
duration, the files it writes into the output directory (also the matches of
the `glob` at line 72), and an exception, if it raises one. -/
structure YdlEnv where
  duration : Nat
  files : List String
  raisesErr : Option String
deriving DecidableEq

/-- `VKWorker._ydl_download` over a filesystem `fs`: returns
`(result, new filesystem)`. The duration check of lines 68-70 happens after
the download and deletes nothing. -/
def ydl_download (e : YdlEnv) (fs : List String) :
    Option (String × Nat) × List String :=
  let fs2 := fs ++ e.files
  if e.raisesErr.isSome then (none, fs2)
  else if e.duration > 60 then (none, fs2)
  else
    match e.files with
    | [] => (none, fs2)
    | f :: _ => (some (f, e.duration), fs2)

/-- `VKWorker.download_one`, lines 80-88: a `None` result from the worker
thread maps to the error string of line 84. -/
def download_one (e : YdlEnv) (fs : List String) :
    (Option String × Option Nat × Option String) × List String :=
  match ydl_download e fs with
  | (none, fs2) => ((none, none, some ("file_not_found_after_download")), fs2)
  | (some (p, d), fs2) => ((some p, some d, none), fs2)

/-- The `DlResult` run_cycle observes for an item whose download is served by
extractor behaviour `e` (the duration metadata is not a text title). -/
def dlResultOf (e : YdlEnv) (fs : List String) : DlResult :=
  match download_one e fs with
  | ((p, _, err), _) => { path := p, metaTitle := none, err := err }

/-! ### The single-flight guard (main.run_cycle_for_chat, lines 173-197, and
the progress path main.update_log_message, lines 130-163) -/

/-- One entry of `log_status` (the keys the guard or the progress path reads
or writes). `gen` models Python dict identity: every freshly allocated entry
dict carries a generation number no other dict has, so two entries are the
same object exactly when their generations are equal. -/
structure Entry where
  gen : Nat
  message_id : Option Nat
  busy : Bool
  use_auto_delay : Bool
deriving DecidableEq

/-- Worker configuration fields assigned at lines 184-190. -/
structure WorkerCfg where
  top_count : Nat
  processing_delay : Nat
  group_id : Option Int
deriving DecidableEq

/-- Process state touched by `run_cycle_for_chat` and `update_log_message`:
the `log_status` map, the next unused dict generation, and the shared worker
object. -/
structure BotState where
  log_status : List (Int × Entry)
  nextGen : Nat
  worker : WorkerCfg
deriving DecidableEq

def lookupChat : List (Int × Entry) → Int → Option Entry
  | [], _ => none
  | (c, e) :: l, chat => if c = chat then some e else lookupChat l chat

def setChat : List (Int × Entry) → Int → Entry → List (Int × Entry)
  | [], _, _ => []
  | (c, e) :: l, chat, e2 =>
    if c = chat then (c, e2) :: l else (c, e) :: setChat l chat e2

/-- `log_status.setdefault(chat_id, {})`: a missing key is inserted with a
freshly allocated empty entry (generation `g`), whose absent `message_id`,
`busy` and `use_auto_delay` keys read as absent / falsy. -/
def setdefaultEntry (ls : List (Int × Entry)) (chat : Int) (g : Nat) :
    List (Int × Entry) × Entry :=
  match lookupChat ls chat with
  | some e => (ls, e)
  | none => (ls ++ [(chat, ⟨g, none, false, false⟩)], ⟨g, none, false, false⟩)

/-- `update_log_message`, lines 130-163, restricted to the modelled keys.
When the chat has no entry, or its entry is the empty dict or otherwise lacks
`message_id` (lines 135-144), a log message is sent and `log_status[chat_id]`
is REPLACED by a freshly allocated dict whose `busy` key is `False` — the old
dict, with whatever `busy` value it held, is orphaned. Otherwise (lines
145-163) the existing dict is edited in place: only `last_text` and
`last_reply_markup` change, none of the modelled keys. `mid` is the Telegram
message id the `send_message` call returns. -/
def update_log_message (st : BotState) (chat : Int) (mid : Nat) : BotState :=
  match lookupChat st.log_status chat with
  | none =>
    { st with
      log_status := st.log_status ++ [(chat, ⟨st.nextGen, some mid, false, false⟩)],
      nextGen := st.nextGen + 1 }
  | some e =>
    if e.message_id.isSome then st
    else
      { st with
        log_status := setChat st.log_status chat ⟨st.nextGen, some mid, false, false⟩,
        nextGen := st.nextGen + 1 }

/-- Outcome of entering `run_cycle_for_chat`. -/
inductive StartResult
  | rejected (st : BotState)
  | started (st : BotState)
deriving DecidableEq

/-- Lines 176-190 of main.py: reject while `busy` is truthy (sending only a
chat notice); otherwise set `busy` synchronously — before any awaitable work —
on the very dict `setdefault` returned, and install the freshly reloaded
configuration on the worker. A generation is consumed when `setdefault`
allocated a new dict. -/
def run_cycle_for_chat_start (st : BotState) (chat : Int) (cfg : WorkerCfg) :
    StartResult :=
  let p := setdefaultEntry st.log_status chat st.nextGen
  let g2 := if (lookupChat st.log_status chat).isNone then st.nextGen + 1
            else st.nextGen
  if p.2.busy then
    StartResult.rejected { st with log_status := p.1, nextGen := g2 }
  else
    let e2 : Entry := { p.2 with busy := true }
    let delay :=
      if p.2.use_auto_delay ∧ 0 < cfg.top_count then 3600 / cfg.top_count
      else cfg.processing_delay
    StartResult.started
      { log_status := setChat p.1 chat e2,
        nextGen := g2,
        worker :=
          { cfg with processing_delay := delay } }

/-- The `finally` block, lines 195-197: it mutates the dict captured by the
`entry` variable at line 176 (generation `g`). That write is visible in
`log_status` only while the map still holds that same dict; after
`update_log_message` replaced the entry, the write lands on the orphaned
dict and the map is unchanged. -/
def run_cycle_for_chat_finish (st : BotState) (chat : Int) (g : Nat) :
    BotState :=
  match lookupChat st.log_status chat with
  | some e =>
    if e.gen = g then
      { st with
        log_status :=
          setChat st.log_status chat
            { e with busy := false, use_auto_delay := false } }
    else st
  | none => st

/-! ### Helper definitions for claim statements and concrete scenarios -/

/-- A field that yields no content for the description builder: absent, or
blank (so that Python's `val.strip()` is falsy). -/
def BlankField : Option String → Prop
  | none => True
  | some s => ∀ c ∈ s.data, c.isWhitespace = true

instance : (o : Option String) → Decidable (BlankField o)
  | none => isTrue trivial
  | some s => inferInstanceAs (Decidable (∀ c ∈ s.data, c.isWhitespace = true))

/-- No text field of the item yields content for the description builder. -/
def NoContent (item : Item) : Prop :=
  BlankField item.description ∧ BlankField item.title ∧
    BlankField item.caption ∧ BlankField item.text

instance (item : Item) : Decidable (NoContent item) :=
  inferInstanceAs (Decidable (_ ∧ _ ∧ _ ∧ _))

/-- A publish environment whose four calls all succeed. -/
def okPub : PubEnv := ⟨fun _ => .ok (), .ok (), fun _ => .ok (), .ok ()⟩

/-- A publish environment whose metadata (`shortVideo.edit`) call fails with
the provider's rate-limit message. -/
def sentinelEditPub : PubEnv :=
  ⟨fun _ => .ok (), .ok (),
    fun _ => .error ("VK API error: Too many requests per second"), .ok ()⟩

/-- A publish environment whose reserve (`shortVideo.create`) call returns the
rate-limit sentinel on the first attempt and would succeed on any retry. -/
def retryCreatePub : PubEnv :=
  ⟨fun n => if n = 0
      then .error ("VK API error: Too many requests per second")
      else .ok (),
    .ok (), fun _ => .ok (), .ok ()⟩

def itemA : Item := ⟨none, none, none, none, 1, 1⟩
def itemB : Item := ⟨none, none, none, none, 2, 2⟩

/-- A concrete item whose description carries a repeated hashtag, used to
evaluate the description builder on closed inputs. -/
def itemC : Item :=
  { description := some "#alpha #beta #alpha", title := none, caption := none,
    text := none, owner_id := 1, id := 2 }

/-- Item environment with successful download and transform. -/
def envOk (p u : String) (pub : PubEnv) : ItemEnv :=
  ⟨⟨some p, none, none⟩, ⟨some u, none⟩, pub⟩

/-- Two-item scenario: the first item's metadata call hits the rate limit, the
second item's protocol succeeds. -/
def runSentinel : RunResult :=
  run_cycle [itemA, itemB]
    [envOk ("a.mp4") ("a_unique.mp4") sentinelEditPub,
     envOk ("b.mp4") ("b_unique.mp4") okPub] []

/-- One-item scenario: the reserve call returns the sentinel once and would
succeed on the second attempt. -/
def runRetry : RunResult :=
  run_cycle [itemA] [envOk ("a.mp4") ("a_unique.mp4") retryCreatePub] []

/-- Extractor behaviour for an over-long video that was downloaded to disk. -/
def longYdl : YdlEnv := ⟨61, [("videos/abc.mp4")], none⟩

/-- One-item scenario: the item's download is served by `longYdl`. -/
def runLong : RunResult :=
  run_cycle [itemA] [⟨dlResultOf longYdl [], ⟨none, none⟩, okPub⟩] []

/-- What the publish loop turns one record into (the loop's behaviour on a
record is a function of the record alone; indices only shape messages). -/
def finRec (r : Rec) : Rec :=
  match r.path with
  | none => r
  | some _ =>
    match pubResult r.pubEnv (build_description r.item) with
    | .ok _ => { r with status := .published }
    | .error e => { r with status := .upload_failed, err := some e }

/-- Number of records carrying an asset path. -/
def countP (recs : List Rec) : Nat :=
  (recs.filter (fun r => r.path.isSome)).length

/-- The publish loop from a given enumeration start. -/
def phase2From (st : P2State) (k : Nat) (recs : List Rec) : P2State :=
  (recs.enumFrom k).foldl (fun acc ir => pubOne acc ir.1 ir.2) st

/-- Sum of `f` over indices `0..n-1`. -/
def sumOver (n : Nat) (f : Nat → Nat) : Nat := ((List.range n).map f).sum

/-- Per-item weight of a step for the counting invariants of phase 1. -/
def envW (e : ItemEnv) : Nat :=
  if e.dl.failed = false ∧ e.uniq.failed = false then 1 else 0

/-- Weighted number of occurrences of step `s` still pending in machine `m`. -/
def remW (m : Machine) (w : ItemEnv → Nat) (s : Step) : Nat :=
  sumOver m.ctx.length (fun i =>
    (match m.ctx[i]? with
      | some (_, _, e) => w e
      | none => 0) * ((m.progs.getD i []).count s))

/-- The counter chain a progress snapshot must satisfy. -/
def snapOk (s : RunState) : Prop :=
  s.published = s.uploaded ∧ s.uploaded ≤ s.downloaded ∧
    s.downloaded ≤ s.total

/-- Invariant of the Retrieval+Transform stage, parametrised by the fetched
count `n`, the total weighted `dlOk` steps `tD` and the total weighted
successful `uniqStep` steps `tU` of the starting machine. -/
structure Inv1 (n tD tU : Nat) (m : Machine) : Prop where
  lenp : m.ctx.length = m.progs.length
  total_eq : m.rs.total = n
  upl0 : m.rs.uploaded = 0
  pub0 : m.rs.published = 0
  dl_eq : m.rs.downloaded + remW m (fun _ => 1) Step.dlOk = tD
  tD_le : tD ≤ n
  un_eq : m.rs.uniqueized + remW m envW Step.uniqStep = tU
  tU_le : tU ≤ tD
  un_guard : ∀ i idx it e, m.ctx[i]? = some (idx, it, e) →
    e.dl.failed = true → ((m.progs.getD i []).count Step.uniqStep) = 0
  recs_path : countP m.enriched = m.rs.uniqueized
  recs_status : ∀ r ∈ m.enriched,
    (r.path.isSome = true → r.status = Status.uniqueized) ∧
    (r.path = none → r.status = Status.download_failed ∨
      r.status = Status.uniqueize_failed)
  calls_create0 : m.calls.create = 0
  snaps_chain : ∀ s ∈ m.snaps, snapOk s
  snaps_total : ∀ s ∈ m.snaps.drop 2, s.total = n

/-! ## Library lemmas for the guard model -/

theorem lookupChat_setChat_self (ls : List (Int × Entry)) (chat : Int)
    (e e2 : Entry) (h : lookupChat ls chat = some e) :
    lookupChat (setChat ls chat e2) chat = some e2 := by
  induction ls with
  | nil => simp [lookupChat] at h
  | cons p l ih =>
    by_cases hc : p.1 = chat
    · simp [lookupChat, setChat, hc]
    · simp only [lookupChat, setChat, hc, if_false] at h ⊢
      exact ih h

theorem setdefaultEntry_lookup (ls : List (Int × Entry)) (chat : Int)
    (g : Nat) :
    lookupChat (setdefaultEntry ls chat g).1 chat =
      some (setdefaultEntry ls chat g).2 := by
  unfold setdefaultEntry
  cases h : lookupChat ls chat with
  | some e => simpa using h
  | none =>
    simp only [h]
    induction ls with
    | nil => simp [lookupChat]
    | cons p l ih =>
      by_cases hc : p.1 = chat
      · simp [lookupChat, hc] at h
      · simp only [lookupChat, hc, if_false] at h
        simpa [lookupChat, hc] using ih h

/-! ## C3 -/

/-- C3 counterexample: with an empty fetched list, `run_cycle` returns while
the stage is still `fetch_top`; the claimed final stage `done` is never set,
because the early return of line 259 skips line 342. -/
theorem c3_counterexample :
    (run_cycle [] [] []).final.stage = Stage.fetch_top ∧
    (run_cycle [] [] []).final.stage ≠ Stage.done := by
  exact ⟨rfl, by decide⟩

/-- C3 (amended): for every run whose list fetch returns zero candidates,
`run_cycle` reports and returns a final state with `total = 0` and with stage
still `fetch_top` (the early return skips the `done` assignment), having made
zero retrieval calls and zero publish calls; the stage sequence observed
through progress snapshots is init → fetch_top (the final report repeats
`fetch_top`). -/
theorem c3_empty_fetch (envs : List ItemEnv) (sched : List Nat) :
    (run_cycle [] envs sched).final.total = 0 ∧
    (run_cycle [] envs sched).final.stage = Stage.fetch_top ∧
    ((run_cycle [] envs sched).snaps.map (fun s => s.stage)) =
      [Stage.init, Stage.fetch_top, Stage.fetch_top] ∧
    (run_cycle [] envs sched).calls = noCalls ∧
    (run_cycle [] envs sched).recs = [] :=
  ⟨rfl, rfl, rfl, rfl, rfl⟩

/-! ## C8 -/

/-- The guard itself: a call made while the session entry's `busy` flag is
set is rejected with the process state unchanged. -/
theorem guard_rejects_busy (st : BotState) (chat : Int) (cfg : WorkerCfg)
    (e : Entry) (h : lookupChat st.log_status chat = some e)
    (hb : e.busy = true) :
    run_cycle_for_chat_start st chat cfg = StartResult.rejected st := by
  unfold run_cycle_for_chat_start setdefaultEntry
  simp [h, hb]

/-- A progress callback on a session whose entry carries a message id takes
the in-place edit branch and leaves the modelled state unchanged. -/
theorem update_log_message_fixed (st : BotState) (chat : Int) (mid : Nat)
    (e : Entry) (h : lookupChat st.log_status chat = some e)
    (hm : e.message_id.isSome = true) :
    update_log_message st chat mid = st := by
  unfold update_log_message
  simp [h, hm]

/-- Any number of progress callbacks on a session whose entry carries a
message id leave the modelled state unchanged. -/
theorem foldl_update_fixed (chat : Int) (mids : List Nat) :
    ∀ (st : BotState) (e : Entry), lookupChat st.log_status chat = some e →
    e.message_id.isSome = true →
    mids.foldl (fun s m => update_log_message s chat m) st = st := by
  induction mids with
  | nil => intro st e _ _; rfl
  | cons m ms ih =>
    intro st e h hm
    simp only [List.foldl_cons]
    rw [update_log_message_fixed st chat m e h hm]
    exact ih st e h hm

/-- C8 counterexample: on a session's first-ever run the `setdefault` entry
has no `message_id`, so the cycle's first progress callback goes through the
replace branch of `update_log_message` (lines 135-144) and installs a fresh
entry with `busy = False` while the cycle is still in flight; a second
`runCycle` call for the same session then passes the guard and starts a
concurrent cycle instead of being rejected. -/
theorem c8_counterexample :
    run_cycle_for_chat_start ⟨[], 0, ⟨10, 60, none⟩⟩ 1 ⟨10, 60, none⟩ =
      StartResult.started
        ⟨[(1, ⟨0, none, true, false⟩)], 1, ⟨10, 60, none⟩⟩ ∧
    update_log_message ⟨[(1, ⟨0, none, true, false⟩)], 1, ⟨10, 60, none⟩⟩
        1 42 =
      ⟨[(1, ⟨1, some 42, false, false⟩)], 2, ⟨10, 60, none⟩⟩ ∧
    run_cycle_for_chat_start
        ⟨[(1, ⟨1, some 42, false, false⟩)], 2, ⟨10, 60, none⟩⟩ 1
        ⟨10, 60, none⟩ =
      StartResult.started
        ⟨[(1, ⟨1, some 42, true, false⟩)], 2, ⟨10, 60, none⟩⟩ := by
  decide

/-- C8 (amended): the guard rejects, with no state change, any call made
while the session entry's `busy` flag is set. An accepted start keeps that
protection for the whole cycle only when the session's entry already carried
a `message_id` when the cycle started (a prior /start or a completed earlier
cycle created the log message): then every progress callback takes the
in-place branch of `update_log_message`, the entry — `busy = True` included —
survives unchanged, and an overlapping second call is rejected with no state
mutation. On a first-ever run the entry lacks `message_id`, the first
callback replaces it with a `busy = False` dict, and the single-flight
guarantee fails. -/
theorem c8_single_flight_with_message_id :
    (∀ (st : BotState) (chat : Int) (cfg : WorkerCfg) (e : Entry),
        lookupChat st.log_status chat = some e → e.busy = true →
        run_cycle_for_chat_start st chat cfg = StartResult.rejected st) ∧
    (∀ (st st2 : BotState) (chat : Int) (cfg cfg2 : WorkerCfg) (e : Entry)
        (mids : List Nat),
        lookupChat st.log_status chat = some e →
        e.message_id.isSome = true →
        run_cycle_for_chat_start st chat cfg = StartResult.started st2 →
        mids.foldl (fun s m => update_log_message s chat m) st2 = st2 ∧
        run_cycle_for_chat_start st2 chat cfg2 =
          StartResult.rejected st2) := by
  constructor
  · exact guard_rejects_busy
  · intro st st2 chat cfg cfg2 e mids h hm hs
    simp only [run_cycle_for_chat_start, setdefaultEntry, h] at hs
    by_cases hb : e.busy = true
    · rw [if_pos hb] at hs
      exact absurd hs (by simp)
    · rw [if_neg hb] at hs
      injection hs with hs2
      have h2 : lookupChat st2.log_status chat = some { e with busy := true } := by
        rw [← hs2]
        exact lookupChat_setChat_self _ _ _ _ h
      refine ⟨foldl_update_fixed chat mids st2 { e with busy := true } h2 hm,
        guard_rejects_busy st2 chat cfg2 { e with busy := true } h2 rfl⟩

/-- C8 witness: the amended theorem at a session whose entry holds a message
id — one callback leaves the state fixed and the overlapping call is
rejected. -/
theorem c8_witness :
    List.foldl (fun s m => update_log_message s 1 m)
        ⟨[(1, ⟨0, some 5, true, false⟩)], 1, ⟨10, 60, none⟩⟩ [7] =
      ⟨[(1, ⟨0, some 5, true, false⟩)], 1, ⟨10, 60, none⟩⟩ ∧
    run_cycle_for_chat_start
        ⟨[(1, ⟨0, some 5, true, false⟩)], 1, ⟨10, 60, none⟩⟩ 1
        ⟨10, 60, none⟩ =
      StartResult.rejected
        ⟨[(1, ⟨0, some 5, true, false⟩)], 1, ⟨10, 60, none⟩⟩ :=
  c8_single_flight_with_message_id.2
    ⟨[(1, ⟨0, some 5, false, false⟩)], 1, ⟨10, 60, none⟩⟩
    ⟨[(1, ⟨0, some 5, true, false⟩)], 1, ⟨10, 60, none⟩⟩
    1 ⟨10, 60, none⟩ ⟨10, 60, none⟩ ⟨0, some 5, false, false⟩ [7]
    (by decide) (by decide) (by decide)

/-! ## C5 -/

/-- C5 counterexample: a download whose duration (61s) exceeds the 60s policy
threshold is rejected, yet the downloaded file is still on disk afterwards —
the claim that no file for the item remains is false. -/
theorem c5_counterexample :
    (ydl_download longYdl []).1 = none ∧
    ("videos/abc.mp4") ∈ (ydl_download longYdl []).2 := by
  exact ⟨rfl, by decide⟩

/-- C5 (amended): a download whose resulting media duration exceeds the policy
threshold is a policy rejection: the extractor result is discarded, the item is
marked `download_failed` for this cycle with the not-found error string and the
download is never retried (a single extractor call) — but the already
downloaded file remains on disk; it is only removed by the next cycle's
directory cleanup. -/
theorem c5_policy_rejection (e : YdlEnv) (fs : List String)
    (h1 : e.raisesErr = none) (h2 : 60 < e.duration) :
    (ydl_download e fs).1 = none ∧
    (ydl_download e fs).2 = fs ++ e.files ∧
    (∀ f ∈ e.files, f ∈ (ydl_download e fs).2) ∧
    (download_one e fs).1 =
      (none, none, some ("file_not_found_after_download")) ∧
    (runLong.recs.map (fun r => (r.status, r.err))) =
      [(Status.download_failed, some ("file_not_found_after_download"))] ∧
    runLong.calls.dl = 1 := by
  have hy : ydl_download e fs = (none, fs ++ e.files) := by
    unfold ydl_download
    rw [h1]
    simp [h2]
  refine ⟨?_, ?_, ?_, ?_, by decide, by decide⟩
  · rw [hy]
  · rw [hy]
  · intro f hf
    rw [hy]
    exact List.mem_append_right _ hf
  · unfold download_one
    rw [hy]

/-- C5 witness: the amended theorem applied to the concrete over-long
download. -/
theorem c5_witness :
    (ydl_download longYdl []).1 = none ∧
    (ydl_download longYdl []).2 = [] ++ longYdl.files ∧
    (∀ f ∈ longYdl.files, f ∈ (ydl_download longYdl []).2) ∧
    (download_one longYdl []).1 =
      (none, none, some ("file_not_found_after_download")) ∧
    (runLong.recs.map (fun r => (r.status, r.err))) =
      [(Status.download_failed, some ("file_not_found_after_download"))] ∧
    runLong.calls.dl = 1 :=
  c5_policy_rejection longYdl [] rfl (by decide)

/-! ## C7 -/

/-- C7 counterexample: an item with no text content does not get the default
fallback description — the builder always appends the generated tag, so the
result strictly extends the fallback string. -/
theorem c7_counterexample :
    NoContent itemA ∧ build_description itemA ≠ promoStr := by
  exact ⟨⟨trivial, trivial, trivial, trivial⟩, by decide⟩

theorem fieldHashtags_blank {o : Option String} (h : BlankField o) :
    fieldHashtags o = [] := by
  cases o with
  | none => rfl
  | some s =>
    unfold fieldHashtags
    have hfa : s.data.any (fun c => !c.isWhitespace) = false := by
      simp only [List.any_eq_false]
      intro x hx
      simp [h x hx]
    simp [hfa]

theorem tag_data_head (o v : Int) : ((vkTag o v).data).head? = some '#' := by
  simp [vkTag, String.data_append]

theorem promo_ne_tag (o v : Int) : promoStr.data ≠ (vkTag o v).data := by
  intro h
  have h2 := congrArg List.head? h
  rw [tag_data_head] at h2
  simp [promoStr] at h2

theorem dedup_pair {α : Type} [DecidableEq α] {a b : α} (h : a ≠ b) :
    dedupFirst [a, b] = [a, b] := by
  simp [dedupFirst, dedupFirstAux, Ne.symm h]

theorem intercalate_pair {α : Type} (s a b : List α) :
    List.intercalate s [a, b] = a ++ s ++ b := by
  simp [List.intercalate, List.intersperse]

/-- C7 (amended): for a candidate item none of whose text fields yields
content, the builder returns the promotional default text joined to the
generated owner/item tag — not the bare `fallback` default, which is
unreachable because the promo element is always inserted; and for every item
(and any fallback) the returned description is at most 999 characters. -/
theorem c7_default_description :
    (∀ item : Item, NoContent item →
      build_description item =
        String.mk ((promoStr.data ++ sepStr.data ++
          (vkTag item.owner_id item.id).data).take 999)) ∧
    (∀ (item : Item) (fallback : String),
      (build_description_with item fallback).length ≤ 999) := by
  constructor
  · rintro item ⟨h1, h2, h3, h4⟩
    have hp : descParts item =
        [promoStr.data, (vkTag item.owner_id item.id).data] := by
      simp [descParts, fieldHashtags_blank h1, fieldHashtags_blank h2,
        fieldHashtags_blank h3, fieldHashtags_blank h4]
    unfold build_description build_description_with
    rw [hp]
    simp [dedup_pair (promo_ne_tag item.owner_id item.id), intercalate_pair]
  · intro item fallback
    unfold build_description_with
    have hle : ((if (descParts item).isEmpty then fallback.data
        else List.intercalate sepStr.data (dedupFirst (descParts item))).take
          999).length ≤ 999 := by
      rw [List.length_take]
      exact min_le_left _ _
    exact hle

/-- C7 witness: the amended theorem at the contentless item `itemA` and at the
default fallback. -/
theorem c7_witness :
    build_description itemA =
      String.mk ((promoStr.data ++ sepStr.data ++
        (vkTag itemA.owner_id itemA.id).data).take 999) ∧
    (build_description_with itemA promoStr).length ≤ 999 :=
  ⟨c7_default_description.1 itemA ⟨trivial, trivial, trivial, trivial⟩,
    c7_default_description.2 itemA promoStr⟩

/-! ## C1 -/

/-- C1 counterexample: the provider's rate-limit error on item 1's metadata
step does not halt the publish stage — item 1 is merely marked
`upload_failed` with the captured message, item 2 is still attempted (two
reserve calls are made) and is published. -/
theorem c1_counterexample :
    (runSentinel.recs.map (fun r => (r.status, r.err))) =
      [(Status.upload_failed,
          some ("VK API error: Too many requests per second")),
        (Status.published, none)] ∧
    runSentinel.calls.create = 2 ∧
    runSentinel.final.published = 1 := by
  exact ⟨by decide, by decide, by decide⟩

/-! ## C2 -/

/-- C2 counterexample: an item whose reserve call returns the rate-limit
sentinel exactly once, and would succeed on the very next attempt, is still
marked `upload_failed`: the code performs a single reserve attempt with no
backoff and no retry. -/
theorem c2_counterexample :
    retryCreatePub.create 0 =
      Except.error ("VK API error: Too many requests per second") ∧
    retryCreatePub.create 1 = Except.ok () ∧
    (runRetry.recs.map (fun r => (r.status, r.err))) =
      [(Status.upload_failed,
          some ("VK API error: Too many requests per second"))] ∧
    runRetry.calls.create = 1 := by
  exact ⟨rfl, rfl, by decide, by decide⟩

/-! ## Publish-loop lemmas (phase 2) -/

theorem pubCalls_create (p : PubEnv) (d : String) (c : Calls) :
    (pubCalls p d c).create = c.create + 1 := by
  unfold pubCalls
  cases p.create 0 with
  | error e => rfl
  | ok _ =>
    cases p.upload with
    | error e => rfl
    | ok _ =>
      cases p.edit d with
      | error e => rfl
      | ok _ => rfl

theorem finRec_path (r : Rec) : (finRec r).path = r.path := by
  cases hp : r.path with
  | none => simp [finRec, hp]
  | some p =>
    cases hr : pubResult r.pubEnv (build_description r.item) with
    | ok _ => simp [finRec, hp, hr]
    | error e => simp [finRec, hp, hr]

theorem pubOne_recsDone (st : P2State) (k : Nat) (r : Rec) :
    (pubOne st k r).recsDone = st.recsDone ++ [finRec r] := by
  cases hp : r.path with
  | none => simp [pubOne, finRec, hp]
  | some p =>
    cases hr : pubResult r.pubEnv (build_description r.item) with
    | ok _ => simp [pubOne, finRec, hp, hr]
    | error e => simp [pubOne, finRec, hp, hr]

theorem pubOne_fixed (st : P2State) (k : Nat) (r : Rec) :
    (pubOne st k r).rs.total = st.rs.total ∧
    (pubOne st k r).rs.downloaded = st.rs.downloaded ∧
    (pubOne st k r).rs.uniqueized = st.rs.uniqueized ∧
    (pubOne st k r).rs.stage = st.rs.stage := by
  cases hp : r.path with
  | none => simp [pubOne, hp]
  | some p =>
    cases hr : pubResult r.pubEnv (build_description r.item) with
    | ok _ => simp [pubOne, hp, hr]
    | error e => simp [pubOne, hp, hr]

theorem pubOne_create (st : P2State) (k : Nat) (r : Rec) :
    (pubOne st k r).calls.create =
      st.calls.create + (if r.path.isSome then 1 else 0) := by
  cases hp : r.path with
  | none => simp [pubOne, hp]
  | some p =>
    cases hr : pubResult r.pubEnv (build_description r.item) with
    | ok _ => simp [pubOne, hp, hr, pubCalls_create]
    | error e => simp [pubOne, hp, hr, pubCalls_create]

theorem pubOne_uploaded_le (st : P2State) (k : Nat) (r : Rec) :
    (pubOne st k r).rs.uploaded ≤
      st.rs.uploaded + (if r.path.isSome then 1 else 0) := by
  cases hp : r.path with
  | none => simp [pubOne, hp]
  | some p =>
    cases hr : pubResult r.pubEnv (build_description r.item) with
    | ok _ => simp [pubOne, hp, hr]
    | error e => simp [pubOne, hp, hr]

theorem pubOne_pub_eq (st : P2State) (k : Nat) (r : Rec)
    (h : st.rs.published = st.rs.uploaded) :
    (pubOne st k r).rs.published = (pubOne st k r).rs.uploaded := by
  cases hp : r.path with
  | none => simpa [pubOne, hp] using h
  | some p =>
    cases hr : pubResult r.pubEnv (build_description r.item) with
    | ok _ => simp [pubOne, hp, hr, h]
    | error e => simpa [pubOne, hp, hr] using h

theorem pubOne_snaps (st : P2State) (k : Nat) (r : Rec) :
    ∃ extra, (pubOne st k r).snaps = st.snaps ++ extra ∧
      ∀ s ∈ extra, s.total = st.rs.total ∧ s.published = st.rs.published ∧
        s.uploaded = st.rs.uploaded ∧ s.downloaded = st.rs.downloaded := by
  cases hp : r.path with
  | none => exact ⟨[], by simp [pubOne, hp], by simp⟩
  | some p =>
    cases hr : pubResult r.pubEnv (build_description r.item) with
    | ok _ =>
      refine ⟨[{ st.rs with
        messages := st.rs.messages ++ [Msg.uploading k st.rs.total p] }],
        by simp [pubOne, hp, hr], ?_⟩
      intro s hs
      simp only [List.mem_singleton] at hs
      subst hs
      exact ⟨rfl, rfl, rfl, rfl⟩
    | error e =>
      refine ⟨[{ st.rs with
          messages := st.rs.messages ++ [Msg.uploading k st.rs.total p] },
        { st.rs with
          failed := st.rs.failed + 1,
          messages := st.rs.messages ++
            [Msg.uploading k st.rs.total p, Msg.publishFailed e] }],
        by simp [pubOne, hp, hr], ?_⟩
      intro s hs
      simp only [List.mem_cons, List.mem_singleton] at hs
      rcases hs with h | h | h
      · subst h; exact ⟨rfl, rfl, rfl, rfl⟩
      · subst h; exact ⟨rfl, rfl, rfl, rfl⟩
      · cases h

theorem phase2From_cons (st : P2State) (k : Nat) (r : Rec) (recs : List Rec) :
    phase2From st k (r :: recs) = phase2From (pubOne st k r) (k + 1) recs := rfl

theorem phase2From_recsDone (recs : List Rec) : ∀ (k : Nat) (st : P2State),
    (phase2From st k recs).recsDone = st.recsDone ++ recs.map finRec := by
  induction recs with
  | nil => intro k st; simp [phase2From]
  | cons r rest ih =>
    intro k st
    rw [phase2From_cons, ih]
    simp [pubOne_recsDone]

theorem phase2From_fixed (recs : List Rec) : ∀ (k : Nat) (st : P2State),
    (phase2From st k recs).rs.total = st.rs.total ∧
    (phase2From st k recs).rs.downloaded = st.rs.downloaded ∧
    (phase2From st k recs).rs.uniqueized = st.rs.uniqueized ∧
    (phase2From st k recs).rs.stage = st.rs.stage := by
  induction recs with
  | nil => intro k st; exact ⟨rfl, rfl, rfl, rfl⟩
  | cons r rest ih =>
    intro k st
    rw [phase2From_cons]
    obtain ⟨h1, h2, h3, h4⟩ := ih (k + 1) (pubOne st k r)
    obtain ⟨g1, g2, g3, g4⟩ := pubOne_fixed st k r
    exact ⟨h1.trans g1, h2.trans g2, h3.trans g3, h4.trans g4⟩

theorem phase2From_create (recs : List Rec) : ∀ (k : Nat) (st : P2State),
    (phase2From st k recs).calls.create = st.calls.create + countP recs := by
  induction recs with
  | nil => intro k st; simp [phase2From, countP]
  | cons r rest ih =>
    intro k st
    rw [phase2From_cons, ih, pubOne_create]
    cases hp : r.path
    · simp [countP, hp, List.filter]
    · simp [countP, hp, List.filter]
      omega

theorem phase2From_uploaded (recs : List Rec) : ∀ (k : Nat) (st : P2State),
    (phase2From st k recs).rs.uploaded ≤ st.rs.uploaded + countP recs := by
  induction recs with
  | nil => intro k st; simp [phase2From]
  | cons r rest ih =>
    intro k st
    rw [phase2From_cons]
    refine le_trans (ih (k + 1) (pubOne st k r)) ?_
    have := pubOne_uploaded_le st k r
    cases hp : r.path <;> simp [hp, countP, List.filter] at this ⊢ <;> omega

theorem phase2From_pub_eq (recs : List Rec) : ∀ (k : Nat) (st : P2State),
    st.rs.published = st.rs.uploaded →
    (phase2From st k recs).rs.published = (phase2From st k recs).rs.uploaded := by
  induction recs with
  | nil => intro k st h; exact h
  | cons r rest ih =>
    intro k st h
    rw [phase2From_cons]
    exact ih (k + 1) (pubOne st k r) (pubOne_pub_eq st k r h)

theorem phase2From_snaps (recs : List Rec) : ∀ (k : Nat) (st : P2State),
    st.rs.published = st.rs.uploaded →
    st.rs.uploaded + countP recs ≤ st.rs.downloaded →
    st.rs.downloaded ≤ st.rs.total →
    ∃ extra, (phase2From st k recs).snaps = st.snaps ++ extra ∧
      ∀ s ∈ extra, s.published = s.uploaded ∧ s.uploaded ≤ s.downloaded ∧
        s.downloaded ≤ s.total ∧ s.total = st.rs.total := by
  induction recs with
  | nil =>
    intro k st h1 h2 h3
    exact ⟨[], by simp [phase2From], by simp⟩
  | cons r rest ih =>
    intro k st h1 h2 h3
    rw [phase2From_cons]
    obtain ⟨e1, he1, hp1⟩ := pubOne_snaps st k r
    obtain ⟨g1, g2, g3, g4⟩ := pubOne_fixed st k r
    have hcnt : countP (r :: rest) =
        countP rest + (if r.path.isSome then 1 else 0) := by
      cases hp : r.path
      · simp [countP, hp, List.filter]
      · simp [countP, hp, List.filter]
    have h1' : (pubOne st k r).rs.published = (pubOne st k r).rs.uploaded :=
      pubOne_pub_eq st k r h1
    have h2' : (pubOne st k r).rs.uploaded + countP rest ≤
        (pubOne st k r).rs.downloaded := by
      have := pubOne_uploaded_le st k r
      rw [g2]
      omega
    have h3' : (pubOne st k r).rs.downloaded ≤ (pubOne st k r).rs.total := by
      rw [g1, g2]; exact h3
    obtain ⟨e2, he2, hp2⟩ := ih (k + 1) (pubOne st k r) h1' h2' h3'
    refine ⟨e1 ++ e2, by rw [he2, he1, List.append_assoc], ?_⟩
    intro s hs
    rcases List.mem_append.1 hs with h | h
    · obtain ⟨t1, t2, t3, t4⟩ := hp1 s h
      refine ⟨by rw [t2, t3]; exact h1, by rw [t3, t4]; omega, by rw [t4, t1]; exact h3, t1⟩
    · obtain ⟨t1, t2, t3, t4⟩ := hp2 s h
      exact ⟨t1, t2, t3, t4.trans g1⟩

/-! ## Retrieval+Transform stage lemmas (phase 1) -/

theorem sum_range_update (n i : Nat) (f g : Nat → Nat) (hi : i < n)
    (hoff : ∀ j, j ≠ i → f j = g j) :
    ((List.range n).map f).sum + g i = ((List.range n).map g).sum + f i := by
  induction n with
  | zero => exact absurd hi (Nat.not_lt_zero i)
  | succ k ih =>
    rw [List.range_succ, List.map_append, List.map_append, List.sum_append,
      List.sum_append]
    by_cases hik : i = k
    · subst hik
      have hmap : (List.range i).map f = (List.range i).map g := by
        apply List.map_congr_left
        intro a ha
        exact hoff a (Nat.ne_of_lt (List.mem_range.1 ha))
      rw [hmap]
      simp
      omega
    · have hi2 : i < k := Nat.lt_of_le_of_ne (Nat.lt_succ_iff.1 hi) hik
      have := ih hi2
      have hfk : f k = g k := hoff k (fun hk => hik hk.symm)
      simp only [List.map_cons, List.map_nil, List.sum_cons, List.sum_nil]
      omega

theorem remW_consume (m : Machine) (w : ItemEnv → Nat) (s0 s : Step)
    (i idx : Nat) (it : Item) (e : ItemEnv) (rest : List Step)
    (hp : m.progs[i]? = some (s0 :: rest)) (hc : m.ctx[i]? = some (idx, it, e))
    (m2 : Machine) (hctx : m2.ctx = m.ctx)
    (hprogs : m2.progs = m.progs.set i rest) :
    remW m w s = remW m2 w s + w e * (if s0 = s then 1 else 0) := by
  unfold remW sumOver
  rw [hctx, hprogs]
  have hi : i < m.ctx.length := (List.getElem?_eq_some.1 hc).1
  have hip : i < m.progs.length := (List.getElem?_eq_some.1 hp).1
  have key := sum_range_update m.ctx.length i
    (fun j =>
      (match m.ctx[j]? with
        | some (_, _, e) => w e
        | none => 0) * (((m.progs.set i rest).getD j []).count s))
    (fun j =>
      (match m.ctx[j]? with
        | some (_, _, e) => w e
        | none => 0) * ((m.progs.getD j []).count s))
    hi ?_
  · have hgi : (m.progs.set i rest).getD i [] = rest := by
      simp [List.getD, List.getElem?_set_self, hip]
    have hgo : m.progs.getD i [] = s0 :: rest := by
      simp [List.getD, hp]
    have hcnt : (s0 :: rest).count s =
        rest.count s + (if s0 = s then 1 else 0) := by
      rw [List.count_cons]
      by_cases hss : s0 = s <;> simp [hss]
    simp only [] at key
    rw [hgi, hgo, hc] at key
    simp only [] at key
    rw [hcnt] at key
    have hmul :
        w e * (rest.count s + (if s0 = s then 1 else 0)) =
          w e * rest.count s + w e * (if s0 = s then 1 else 0) :=
      Nat.mul_add _ _ _
    omega
  · intro j hj
    have hgd : (m.progs.set i rest).getD j [] = m.progs.getD j [] := by
      simp [List.getD, List.getElem?_set_ne (fun h => hj h.symm)]
    simp only []
    rw [hgd]

theorem countP_append (a b : List Rec) : countP (a ++ b) = countP a + countP b := by
  simp [countP, List.filter_append]

theorem mem_drop_append {α : Type} {l1 l2 : List α} {n : Nat} {x : α}
    (h : x ∈ (l1 ++ l2).drop n) : x ∈ l1.drop n ∨ x ∈ l2 := by
  rw [List.drop_append_eq_append_drop] at h
  rcases List.mem_append.1 h with h | h
  · exact Or.inl h
  · exact Or.inr (List.mem_of_mem_drop h)

/-- Core preservation argument: any atomic block that consumes the head of a
task's program and touches the state in the shape of `execStep` keeps `Inv1`. -/
theorem inv1_fire (n tD tU : Nat) (m : Machine) (h : Inv1 n tD tU m)
    (i idx : Nat) (it : Item) (e : ItemEnv) (s0 : Step) (rest : List Step)
    (hp : m.progs[i]? = some (s0 :: rest)) (hc : m.ctx[i]? = some (idx, it, e))
    (m2 : Machine)
    (hctx : m2.ctx = m.ctx)
    (hprogs : m2.progs = m.progs.set i rest)
    (htot : m2.rs.total = m.rs.total)
    (hup : m2.rs.uploaded = m.rs.uploaded)
    (hpub : m2.rs.published = m.rs.published)
    (hdl : m2.rs.downloaded =
      m.rs.downloaded + (if s0 = Step.dlOk then 1 else 0))
    (hun : m2.rs.uniqueized = m.rs.uniqueized +
      (if s0 = Step.uniqStep ∧ e.uniq.failed = false then 1 else 0))
    (henr : ∃ nr, m2.enriched = m.enriched ++ nr ∧
      countP nr =
        (if s0 = Step.uniqStep ∧ e.uniq.failed = false then 1 else 0) ∧
      ∀ r ∈ nr, (r.path.isSome = true → r.status = Status.uniqueized) ∧
        (r.path = none → r.status = Status.download_failed ∨
          r.status = Status.uniqueize_failed))
    (hcr : m2.calls.create = m.calls.create)
    (hsn : m2.snaps = m.snaps ∨ m2.snaps = m.snaps ++ [m2.rs]) :
    Inv1 n tD tU m2 := by
  have hdlrem := remW_consume m (fun _ => 1) s0 Step.dlOk i idx it e rest hp hc
    m2 hctx hprogs
  have hunrem := remW_consume m envW s0 Step.uniqStep i idx it e rest hp hc
    m2 hctx hprogs
  have hdl_eq2 : m2.rs.downloaded + remW m2 (fun _ => 1) Step.dlOk = tD := by
    have := h.dl_eq
    by_cases hss : s0 = Step.dlOk <;> simp [hss] at hdlrem hdl <;> omega
  have hguard : ∀ i2 idx2 it2 e2, m2.ctx[i2]? = some (idx2, it2, e2) →
      e2.dl.failed = true →
      ((m2.progs.getD i2 []).count Step.uniqStep) = 0 := by
    intro i2 idx2 it2 e2 hc2 hf2
    rw [hctx] at hc2
    by_cases hii : i2 = i
    · subst hii
      have hold := h.un_guard i2 idx2 it2 e2 hc2 hf2
      have hgo : m.progs.getD i2 [] = s0 :: rest := by
        simp [List.getD, hp]
      rw [hgo] at hold
      have hgi : (m2.progs).getD i2 [] = rest := by
        rw [hprogs]
        simp [List.getD, List.getElem?_set_self,
          (List.getElem?_eq_some.1 hp).1]
      rw [hgi]
      rw [List.count_cons] at hold
      omega
    · have : (m2.progs).getD i2 [] = m.progs.getD i2 [] := by
        rw [hprogs]
        simp [List.getD, List.getElem?_set_ne (fun hx => hii hx.symm)]
      rw [this]
      exact h.un_guard i2 idx2 it2 e2 hc2 hf2
  have hun_eq2 : m2.rs.uniqueized + remW m2 envW Step.uniqStep = tU := by
    have hold := h.un_eq
    by_cases hss : s0 = Step.uniqStep
    · subst hss
      simp only [if_pos rfl] at hdlrem hunrem ⊢
      by_cases huf : e.uniq.failed = true
      · have hw : envW e = 0 := by simp [envW, huf]
        rw [hw] at hunrem
        simp [huf] at hun
        omega
      · have hdlf : e.dl.failed = false := by
          by_contra hdf
          have hdf2 : e.dl.failed = true := by
            cases hx : e.dl.failed
            · exact absurd hx hdf
            · rfl
          have := h.un_guard i idx it e hc hdf2
          have hgo : m.progs.getD i [] = Step.uniqStep :: rest := by
            simp [List.getD, hp]
          rw [hgo, List.count_cons] at this
          simp at this
        have huf2 : e.uniq.failed = false := by
          revert huf
          cases e.uniq.failed <;> simp
        have hw : envW e = 1 := by
          simp [envW, hdlf, huf2]
        rw [hw] at hunrem
        simp [huf2] at hun hunrem
        omega
    · have hw0 : (if s0 = Step.uniqStep then (1 : Nat) else 0) = 0 := by
        simp [hss]
      rw [hw0, Nat.mul_zero, Nat.add_zero] at hunrem
      have : (if s0 = Step.uniqStep ∧ e.uniq.failed = false then (1 : Nat)
          else 0) = 0 := by
        simp [hss]
      rw [this, Nat.add_zero] at hun
      omega
  obtain ⟨nr, henr_eq, hnr_cnt, hnr_st⟩ := henr
  refine ⟨?_, ?_, ?_, ?_, hdl_eq2, h.tD_le, hun_eq2, h.tU_le, hguard, ?_, ?_,
    ?_, ?_, ?_⟩
  · rw [hctx, hprogs, List.length_set]
    exact h.lenp
  · rw [htot]; exact h.total_eq
  · rw [hup]; exact h.upl0
  · rw [hpub]; exact h.pub0
  · rw [henr_eq, countP_append, hnr_cnt, hun, h.recs_path]
  · intro r hr
    rcases List.mem_append.1 (henr_eq ▸ hr) with hr2 | hr2
    · exact h.recs_status r hr2
    · exact hnr_st r hr2
  · rw [hcr]; exact h.calls_create0
  · rcases hsn with hs | hs
    · rw [hs]; exact h.snaps_chain
    · rw [hs]
      intro s hs2
      rcases List.mem_append.1 hs2 with hs3 | hs3
      · exact h.snaps_chain s hs3
      · have : s = m2.rs := List.mem_singleton.1 hs3
        subst this
        refine ⟨by rw [hpub, hup, h.upl0, h.pub0], ?_, ?_⟩
        · rw [hup, h.upl0]; exact Nat.zero_le _
        · rw [htot, h.total_eq]
          have htd := h.tD_le
          omega
  · rcases hsn with hs | hs
    · rw [hs]; exact h.snaps_total
    · rw [hs]
      intro s hs2
      rcases mem_drop_append hs2 with hs3 | hs3
      · exact h.snaps_total s hs3
      · have : s = m2.rs := List.mem_singleton.1 hs3
        subst this
        rw [htot]
        exact h.total_eq

theorem stepItem_inv1 (n tD tU : Nat) (m : Machine) (i : Nat)
    (h : Inv1 n tD tU m) : Inv1 n tD tU (stepItem m i) := by
  unfold stepItem
  cases hp : m.progs[i]? with
  | none => exact h
  | some prog =>
    cases prog with
    | nil =>
      cases hc : m.ctx[i]? with
      | none => exact h
      | some t => exact h
    | cons s0 rest =>
      cases hc : m.ctx[i]? with
      | none => exact h
      | some t =>
        obtain ⟨idx, it, e⟩ := t
        simp only []
        cases s0 with
        | acquire =>
          exact inv1_fire n tD tU m h i idx it e Step.acquire rest hp hc _
            rfl (by simp [execStep]) rfl rfl rfl (by simp [execStep, pushSnap]) (by simp [execStep, pushSnap])
            ⟨[], by simp [execStep, pushSnap], by simp [countP], by simp⟩ rfl (Or.inl rfl)
        | start =>
          exact inv1_fire n tD tU m h i idx it e Step.start rest hp hc _
            rfl (by simp [execStep, pushSnap]) rfl rfl rfl (by simp [execStep, pushSnap]) (by simp [execStep, pushSnap])
            ⟨[], by simp [execStep, pushSnap], by simp [countP], by simp⟩ rfl (Or.inr rfl)
        | dlFail =>
          refine inv1_fire n tD tU m h i idx it e Step.dlFail rest hp hc _
            rfl (by simp [execStep, pushSnap]) rfl rfl rfl (by simp [execStep, pushSnap]) (by simp [execStep, pushSnap])
            ?_ rfl (Or.inr rfl)
          refine ⟨[_], rfl, by simp [countP], ?_⟩
          intro r hr
          simp only [List.mem_singleton] at hr
          subst hr
          exact ⟨fun hx => by simp at hx, fun _ => Or.inl rfl⟩
        | dlOk =>
          exact inv1_fire n tD tU m h i idx it e Step.dlOk rest hp hc _
            rfl (by simp [execStep, pushSnap])
            rfl rfl rfl (by simp [execStep, pushSnap]) (by simp [execStep, pushSnap])
            ⟨[], by simp [execStep, pushSnap], by simp [countP], by simp⟩
            rfl (Or.inr rfl)
        | uniqStep =>
          by_cases hu : e.uniq.failed = true
          · refine inv1_fire n tD tU m h i idx it e Step.uniqStep rest hp hc _
              (by simp [execStep, pushSnap, hu])
              (by simp [execStep, pushSnap, hu])
              (by simp [execStep, pushSnap, hu])
              (by simp [execStep, pushSnap, hu])
              (by simp [execStep, pushSnap, hu])
              (by simp [execStep, pushSnap, hu])
              (by simp [execStep, pushSnap, hu]) ?_
              (by simp [execStep, pushSnap, hu])
              (Or.inr (by simp [execStep, pushSnap, hu]))
            refine
              ⟨[{ item := updatedItem it e.dl,
                  link := link_from_item it,
                  path := none,
                  status := Status.uniqueize_failed,
                  err := e.uniq.err,
                  title := titleOf it,
                  pubEnv := e.pub }],
                by simp [execStep, pushSnap, hu], ?_, ?_⟩
            · simp [countP, hu]
            · intro r hr
              simp only [List.mem_singleton] at hr
              subst hr
              exact ⟨fun hx => by simp at hx, fun _ => Or.inr rfl⟩
          · have hu2 : e.uniq.failed = false := by
              revert hu
              cases e.uniq.failed <;> simp
            refine inv1_fire n tD tU m h i idx it e Step.uniqStep rest hp hc _
              (by simp [execStep, pushSnap, hu2])
              (by simp [execStep, pushSnap, hu2])
              (by simp [execStep, pushSnap, hu2])
              (by simp [execStep, pushSnap, hu2])
              (by simp [execStep, pushSnap, hu2])
              (by simp [execStep, pushSnap, hu2])
              (by simp [execStep, pushSnap, hu2]) ?_
              (by simp [execStep, pushSnap, hu2])
              (Or.inr (by simp [execStep, pushSnap, hu2]))
            refine
              ⟨[{ item := updatedItem it e.dl,
                  link := link_from_item it,
                  path := some (e.uniq.path.getD ""),
                  status := Status.uniqueized,
                  err := none,
                  title := titleOf it,
                  pubEnv := e.pub }],
                by simp [execStep, pushSnap, hu2], ?_, ?_⟩
            · simp [countP, hu2, List.filter]
            · intro r hr
              simp only [List.mem_singleton] at hr
              subst hr
              refine ⟨fun _ => rfl, fun hx => by simp at hx⟩
        | release =>
          exact inv1_fire n tD tU m h i idx it e Step.release rest hp hc _
            rfl (by simp [execStep]) rfl rfl rfl (by simp [execStep, pushSnap]) (by simp [execStep, pushSnap])
            ⟨[], by simp [execStep, pushSnap], by simp [countP], by simp⟩ rfl (Or.inl rfl)

theorem applySched_inv1 (n tD tU : Nat) (sched : List Nat) :
    ∀ m : Machine, Inv1 n tD tU m → Inv1 n tD tU (applySched m sched) := by
  induction sched with
  | nil => intro m h; exact h
  | cons i rest ih =>
    intro m h
    exact ih (stepItem m i) (stepItem_inv1 n tD tU m i h)

theorem applyN_inv1 (n tD tU : Nat) (i : Nat) (k : Nat) :
    ∀ m : Machine, Inv1 n tD tU m →
      Inv1 n tD tU (applyN (fun x => stepItem x i) k m) := by
  induction k with
  | zero => intro m h; exact h
  | succ k2 ih =>
    intro m h
    exact ih (stepItem m i) (stepItem_inv1 n tD tU m i h)

theorem flushAll_inv1 (n tD tU : Nat) (m : Machine) (h : Inv1 n tD tU m) :
    Inv1 n tD tU (flushAll m) := by
  unfold flushAll
  generalize List.range m.progs.length = is
  induction is generalizing m with
  | nil => exact h
  | cons i rest ih =>
    simp only [List.foldl_cons]
    exact ih _ (applyN_inv1 n tD tU i _ m h)

theorem stepItem_ctx (m : Machine) (i : Nat) : (stepItem m i).ctx = m.ctx := by
  unfold stepItem
  cases hp : m.progs[i]? with
  | none => rfl
  | some prog =>
    cases prog with
    | nil =>
      cases m.ctx[i]? with
      | none => rfl
      | some t => rfl
    | cons s0 rest =>
      cases m.ctx[i]? with
      | none => rfl
      | some t =>
        obtain ⟨idx, it, e⟩ := t
        cases s0 <;> simp [execStep, pushSnap]
        split <;> rfl

theorem stepItem_progs_len (m : Machine) (i : Nat) :
    (stepItem m i).progs.length = m.progs.length := by
  unfold stepItem
  cases hp : m.progs[i]? with
  | none => rfl
  | some prog =>
    cases prog with
    | nil =>
      cases m.ctx[i]? with
      | none => rfl
      | some t => rfl
    | cons s0 rest =>
      cases m.ctx[i]? with
      | none => rfl
      | some t =>
        obtain ⟨idx, it, e⟩ := t
        cases s0 <;> simp [execStep, pushSnap, List.length_set]
        split <;> simp [List.length_set]

/-- Running one enabled block at `i` shortens task `i`'s program by one. -/
theorem stepItem_progs_at (m : Machine) (i : Nat) (s0 : Step)
    (rest : List Step) (hp : m.progs[i]? = some (s0 :: rest))
    (idx : Nat) (it : Item) (e : ItemEnv)
    (hc : m.ctx[i]? = some (idx, it, e)) :
    (stepItem m i).progs.getD i [] = rest := by
  unfold stepItem
  rw [hp, hc]
  simp only []
  have hip : i < m.progs.length := (List.getElem?_eq_some.1 hp).1
  have hlen : (execStep m idx it e s0).progs = m.progs := by
    cases s0 <;> simp [execStep, pushSnap]
    split <;> rfl
  rw [hlen]
  simp [List.getD, List.getElem?_set_self, hip]

theorem stepItem_progs_other (m : Machine) (i j : Nat) (hij : j ≠ i) :
    (stepItem m i).progs.getD j [] = m.progs.getD j [] := by
  unfold stepItem
  cases hp : m.progs[i]? with
  | none => rfl
  | some prog =>
    cases prog with
    | nil =>
      cases m.ctx[i]? with
      | none => rfl
      | some t => rfl
    | cons s0 rest =>
      cases hc : m.ctx[i]? with
      | none => rfl
      | some t =>
        obtain ⟨idx, it, e⟩ := t
        simp only []
        have hlen : (execStep m idx it e s0).progs = m.progs := by
          cases s0 <;> simp [execStep, pushSnap]
          split <;> rfl
        rw [hlen]
        simp [List.getD, List.getElem?_set_ne (fun hx => hij hx.symm)]

theorem stepItem_empty_at (m : Machine) (i j : Nat)
    (h : m.progs.getD j [] = []) : (stepItem m i).progs.getD j [] = [] := by
  by_cases hij : j = i
  · subst hij
    unfold stepItem
    cases hp : m.progs[j]? with
    | none => simp [List.getD, hp]
    | some prog =>
      cases prog with
      | nil =>
        cases m.ctx[j]? with
        | none => simp [List.getD, hp]
        | some t => simp [List.getD, hp]
      | cons s0 rest =>
        exfalso
        simp [List.getD, hp] at h
  · rw [stepItem_progs_other m i j hij]
    exact h

theorem stepItem_lenctx (m : Machine) (i : Nat)
    (h : m.ctx.length = m.progs.length) :
    (stepItem m i).ctx.length = (stepItem m i).progs.length := by
  rw [stepItem_ctx, stepItem_progs_len]
  exact h

/-- Enough iterations at one task empty its program. -/
theorem applyN_empties (i : Nat) (k : Nat) :
    ∀ m : Machine, m.ctx.length = m.progs.length →
      (m.progs.getD i []).length = k →
      (applyN (fun x => stepItem x i) k m).progs.getD i [] = [] := by
  induction k with
  | zero =>
    intro m hlen hk
    exact List.length_eq_zero.1 hk
  | succ k2 ih =>
    intro m hlen hk
    cases hg : m.progs.getD i [] with
    | nil =>
      have hk2 : ([] : List Step).length = k2 + 1 := by
        rw [← hg]
        exact hk
      simp at hk2
    | cons s0 rest =>
      have hip : i < m.progs.length := by
        by_contra hx
        have hnone : m.progs[i]? = none :=
          List.getElem?_eq_none (Nat.le_of_not_lt hx)
        simp [List.getD, hnone] at hg
      have hp : m.progs[i]? = some (s0 :: rest) := by
        cases hq : m.progs[i]? with
        | none => simp [List.getD, hq] at hg
        | some p =>
          simp [List.getD, hq] at hg
          rw [hg]
      have hic : i < m.ctx.length := by
        rw [hlen]
        exact hip
      cases hc : m.ctx[i]? with
      | none =>
        exfalso
        have := List.getElem?_eq_none_iff.1 hc
        omega
      | some t =>
        obtain ⟨idx, it, e⟩ := t
        show (applyN (fun x => stepItem x i) k2 (stepItem m i)).progs.getD i [] = []
        apply ih (stepItem m i) (stepItem_lenctx m i hlen)
        rw [stepItem_progs_at m i s0 rest hp idx it e hc]
        have hk2 : (s0 :: rest).length = k2 + 1 := by
          rw [← hg]
          exact hk
        simp only [List.length_cons, Nat.add_right_cancel_iff] at hk2
        exact hk2

theorem applyN_empty_at (i j : Nat) (k : Nat) :
    ∀ m : Machine, m.progs.getD j [] = [] →
      (applyN (fun x => stepItem x i) k m).progs.getD j [] = [] := by
  induction k with
  | zero => intro m h; exact h
  | succ k2 ih =>
    intro m h
    exact ih (stepItem m i) (stepItem_empty_at m i j h)

theorem applyN_lenctx (i : Nat) (k : Nat) :
    ∀ m : Machine, m.ctx.length = m.progs.length →
      (applyN (fun x => stepItem x i) k m).ctx.length =
        (applyN (fun x => stepItem x i) k m).progs.length := by
  induction k with
  | zero => intro m h; exact h
  | succ k2 ih =>
    intro m h
    exact ih (stepItem m i) (stepItem_lenctx m i h)

/-- After `flushAll`, every program that the gather barrier waits for is
exhausted. -/
theorem flushAll_empties (m : Machine) (hlen : m.ctx.length = m.progs.length) :
    ∀ j, (flushAll m).progs.getD j [] = [] := by
  unfold flushAll
  have main : ∀ (is : List Nat) (m2 : Machine),
      m2.ctx.length = m2.progs.length →
      ∀ j, (j ∈ is ∨ m2.progs.getD j [] = []) →
        ((is.foldl (fun acc i =>
          applyN (fun x => stepItem x i) ((acc.progs.getD i []).length) acc)
            m2).progs.getD j []) = [] := by
    intro is
    induction is with
    | nil =>
      intro m2 hl j hj
      rcases hj with hj | hj
      · cases hj
      · exact hj
    | cons i rest ih =>
      intro m2 hl j hj
      simp only [List.foldl_cons]
      apply ih
      · exact applyN_lenctx i _ m2 hl
      · rcases hj with hj | hj
        · rcases List.mem_cons.1 hj with hj2 | hj2
          · subst hj2
            exact Or.inr (applyN_empties j _ m2 hl rfl)
          · exact Or.inl hj2
        · exact Or.inr (applyN_empty_at i j _ m2 hj)
  intro j
  by_cases hj : j < m.progs.length
  · exact main (List.range m.progs.length) m hlen j
      (Or.inl (List.mem_range.2 hj))
  · apply main (List.range m.progs.length) m hlen j
    refine Or.inr ?_
    have : m.progs[j]? = none := List.getElem?_eq_none (Nat.le_of_not_lt hj)
    simp [List.getD, this]

/-- With all programs exhausted, no weighted step remains. -/
theorem remW_zero (m : Machine) (w : ItemEnv → Nat) (s : Step)
    (h : ∀ j, m.progs.getD j [] = []) : remW m w s = 0 := by
  unfold remW sumOver
  have : ∀ i ∈ List.range m.ctx.length,
      (match m.ctx[i]? with
        | some (_, _, e) => w e
        | none => 0) * ((m.progs.getD i []).count s) = 0 := by
    intro i _
    rw [h i]
    simp
  rw [List.map_congr_left this]
  simp

theorem sumOver_le_card (n : Nat) (f : Nat → Nat) (h : ∀ i, f i ≤ 1) :
    sumOver n f ≤ n := by
  unfold sumOver
  induction n with
  | zero => simp
  | succ k ih =>
    rw [List.range_succ, List.map_append, List.sum_append]
    simp only [List.map_cons, List.map_nil, List.sum_cons, List.sum_nil]
    have := h k
    omega

theorem sumOver_mono (n : Nat) (f g : Nat → Nat) (h : ∀ i, f i ≤ g i) :
    sumOver n f ≤ sumOver n g := by
  unfold sumOver
  exact List.sum_le_sum (fun i _ => h i)

theorem mk_ctx_getElem (items : List Item) (envs : List ItemEnv)
    (rs : RunState) (snaps : List RunState) (i : Nat) :
    (mkMachine items envs rs snaps).ctx[i]? =
      ((items.zip envs)[i]?).map (fun p => (1 + i, p)) := by
  unfold mkMachine
  simp [List.getElem?_enumFrom]

theorem mk_progs_getD (items : List Item) (envs : List ItemEnv)
    (rs : RunState) (snaps : List RunState) (i : Nat) :
    (mkMachine items envs rs snaps).progs.getD i [] =
      (match (items.zip envs)[i]? with
        | some p => progOf p.2
        | none => []) := by
  unfold mkMachine
  simp only [List.getD, List.get?_eq_getElem?]
  rw [List.getElem?_map]
  cases (items.zip envs)[i]? with
  | none => rfl
  | some p => rfl

theorem count_progOf_dlOk (e : ItemEnv) :
    (progOf e).count Step.dlOk ≤ 1 := by
  unfold progOf
  split <;> decide

theorem count_progOf_uniq_of_failed (e : ItemEnv) (h : e.dl.failed = true) :
    (progOf e).count Step.uniqStep = 0 := by
  unfold progOf
  rw [h]
  decide

theorem envW_count_le (e : ItemEnv) :
    envW e * (progOf e).count Step.uniqStep ≤
      1 * (progOf e).count Step.dlOk := by
  cases hf : e.dl.failed with
  | true => simp [count_progOf_uniq_of_failed e hf]
  | false =>
    have h1 : (progOf e).count Step.uniqStep = 1 := by
      unfold progOf
      rw [hf]
      decide
    have h2 : (progOf e).count Step.dlOk = 1 := by
      unfold progOf
      rw [hf]
      decide
    have h3 : envW e ≤ 1 := by
      unfold envW
      split <;> omega
    rw [h1, h2]
    omega

/-- The starting machine of phase 1 satisfies the invariant, with totals given
by its own pending weighted counts. -/
theorem inv1_init (items : List Item) (envs : List ItemEnv) (rs : RunState)
    (snaps : List RunState)
    (hrs_tot : rs.total = items.length) (hup : rs.uploaded = 0)
    (hpub : rs.published = 0) (hdl : rs.downloaded = 0)
    (hun : rs.uniqueized = 0)
    (hsnch : ∀ s ∈ snaps, snapOk s)
    (hsnt : ∀ s ∈ snaps.drop 2, s.total = items.length) :
    Inv1 items.length
      (remW (mkMachine items envs rs snaps) (fun _ => 1) Step.dlOk)
      (remW (mkMachine items envs rs snaps) envW Step.uniqStep)
      (mkMachine items envs rs snaps) := by
  refine ⟨?_, hrs_tot, hup, hpub, by simp [mkMachine, hdl], ?_,
    by simp [mkMachine, hun], ?_, ?_, ?_, ?_, rfl, hsnch, hsnt⟩
  · unfold mkMachine
    simp
  · unfold remW
    refine le_trans (sumOver_le_card _ _ ?_) ?_
    · intro i
      rw [mk_progs_getD]
      cases hz : (items.zip envs)[i]? with
      | none => simp [mk_ctx_getElem, hz]
      | some p =>
        obtain ⟨it, e⟩ := p
        rw [mk_ctx_getElem, hz]
        simp only [Option.map_some]
        have hcnt := count_progOf_dlOk e
        simpa using hcnt
    · unfold mkMachine
      simp only [List.enumFrom_length, List.length_zip]
      exact Nat.min_le_left _ _
  · unfold remW
    apply sumOver_mono
    intro i
    rw [mk_progs_getD, mk_ctx_getElem]
    cases hz : (items.zip envs)[i]? with
    | none => simp
    | some p =>
      obtain ⟨it, e⟩ := p
      simp only [Option.map_some]
      exact envW_count_le e
  · intro i idx it e hc hf
    rw [mk_ctx_getElem] at hc
    rw [mk_progs_getD]
    cases hz : (items.zip envs)[i]? with
    | none => simp [hz] at hc
    | some p =>
      obtain ⟨it2, e2⟩ := p
      rw [hz] at hc
      simp at hc
      obtain ⟨h1, h2, h3⟩ := hc
      subst h3
      exact count_progOf_uniq_of_failed e2 hf
  · simp [countP, mkMachine, hun]
  · intro r hr
    simp [mkMachine] at hr

/-! ## Full-cycle assembly -/

theorem countP_cons (r : Rec) (l : List Rec) :
    countP (r :: l) = (if r.path.isSome then 1 else 0) + countP l := by
  unfold countP
  rw [List.filter_cons]
  split
  · simp [Nat.add_comm]
  · simp

theorem countP_map_finRec (l : List Rec) : countP (l.map finRec) = countP l := by
  induction l with
  | nil => rfl
  | cons r rest ih =>
    rw [List.map_cons, countP_cons, countP_cons, ih, finRec_path]

theorem pubResult_create_error (p : PubEnv) (d : String) (e : String)
    (h : p.create 0 = Except.error e) : pubResult p d = Except.error e := by
  unfold pubResult
  rw [h]
  rfl

theorem finRec_none (r : Rec) (h : r.path = none) : finRec r = r := by
  unfold finRec
  rw [h]

theorem finRec_some_ok (r : Rec) (p : String) (hp : r.path = some p)
    (hr : pubResult r.pubEnv (build_description r.item) = Except.ok ()) :
    finRec r = { r with status := Status.published } := by
  unfold finRec
  rw [hp, hr]

theorem finRec_some_err (r : Rec) (p : String) (hp : r.path = some p)
    (e : String)
    (hr : pubResult r.pubEnv (build_description r.item) = Except.error e) :
    finRec r = { r with status := Status.upload_failed, err := some e } := by
  unfold finRec
  rw [hp, hr]

theorem phase2_eq_from (st : P2State) (recs : List Rec) :
    phase2 st recs = phase2From st 1 recs := rfl

theorem startSnaps_chain (n : Nat) : ∀ s ∈ startSnaps n, snapOk s := by
  intro s hs
  simp only [startSnaps, List.mem_cons, List.not_mem_nil, or_false] at hs
  rcases hs with rfl | rfl | rfl
  · simp [snapOk, rsInit, initState]
  · simp [snapOk, rsFetch, rsInit, initState]
  · simp [snapOk, rsFound, rsFetch, rsInit, initState]

theorem startSnaps_total (n : Nat) :
    ∀ s ∈ (startSnaps n).drop 2, s.total = n := by
  intro s hs
  simp only [startSnaps, List.drop, List.mem_singleton] at hs
  subst hs
  rfl

/-- Master specification of a full cycle, shared by the invariant claims: the
counter chain holds at every snapshot, `total` is the fetched count from the
third snapshot on and in the final state, `uploaded` and `published` move
together, the reserve call is made exactly once per asset-bearing record, and
every record ends in the statuses the stage outcomes dictate. -/
theorem run_cycle_spec (items : List Item) (envs : List ItemEnv)
    (sched : List Nat) :
    (∀ s ∈ (run_cycle items envs sched).snaps, snapOk s) ∧
    (run_cycle items envs sched).final.total = items.length ∧
    (∀ s ∈ (run_cycle items envs sched).snaps.drop 2,
      s.total = items.length) ∧
    (run_cycle items envs sched).final.published =
      (run_cycle items envs sched).final.uploaded ∧
    (run_cycle items envs sched).final.uploaded ≤
      (run_cycle items envs sched).final.downloaded ∧
    (run_cycle items envs sched).final.downloaded ≤
      (run_cycle items envs sched).final.total ∧
    (run_cycle items envs sched).calls.create =
      countP (run_cycle items envs sched).recs ∧
    (∀ r ∈ (run_cycle items envs sched).recs,
      (r.path = none → r.status = Status.download_failed ∨
        r.status = Status.uniqueize_failed) ∧
      (r.path.isSome = true → r.status = Status.published ∨
        r.status = Status.upload_failed) ∧
      (r.path.isSome = true → ∀ e2, r.pubEnv.create 0 = Except.error e2 →
        r.status = Status.upload_failed ∧ r.err = some e2)) := by
  by_cases hemp : items.isEmpty
  · simp only [run_cycle, hemp, if_true]
    refine ⟨?_, rfl, ?_, rfl, le_refl _, ?_, rfl, ?_⟩
    · intro s hs
      simp only [List.mem_cons, List.not_mem_nil, or_false] at hs
      rcases hs with rfl | rfl | rfl
      · simp [snapOk, rsInit, initState]
      · simp [snapOk, rsFetch, rsInit, initState]
      · simp [snapOk, rsEmpty, rsFetch, rsInit, initState]
    · intro s hs
      simp only [List.drop, List.mem_singleton] at hs
      subst hs
      rfl
    · exact Nat.zero_le _
    · intro r hr
      cases hr
  · have hemp2 : items.isEmpty = false := by
      revert hemp
      cases items.isEmpty <;> simp
    simp only [run_cycle, hemp2, Bool.false_eq_true, if_false]
    have hinv0 := inv1_init items envs (rsFound items.length)
      (startSnaps items.length) rfl rfl rfl rfl rfl
      (startSnaps_chain items.length) (startSnaps_total items.length)
    have hinv1 := applySched_inv1 items.length _ _ sched _ hinv0
    have hinv : Inv1 items.length
        (remW (mkMachine items envs (rsFound items.length)
          (startSnaps items.length)) (fun _ => 1) Step.dlOk)
        (remW (mkMachine items envs (rsFound items.length)
          (startSnaps items.length)) envW Step.uniqStep)
        (phase1End items envs sched) := by
      unfold phase1End
      exact flushAll_inv1 _ _ _ _ hinv1
    have hempties : ∀ j, (phase1End items envs sched).progs.getD j [] = [] := by
      unfold phase1End
      exact flushAll_empties _ hinv1.lenp
    set m1 := phase1End items envs sched with hm1
    have hdlf : m1.rs.downloaded + 0 =
        remW (mkMachine items envs (rsFound items.length)
          (startSnaps items.length)) (fun _ => 1) Step.dlOk := by
      rw [← remW_zero m1 (fun _ => 1) Step.dlOk hempties]
      exact hinv.dl_eq
    have hunf : m1.rs.uniqueized + 0 =
        remW (mkMachine items envs (rsFound items.length)
          (startSnaps items.length)) envW Step.uniqStep := by
      rw [← remW_zero m1 envW Step.uniqStep hempties]
      exact hinv.un_eq
    have hud : m1.rs.uniqueized ≤ m1.rs.downloaded := by
      have h1 := hinv.tU_le
      omega
    have hdt : m1.rs.downloaded ≤ m1.rs.total := by
      have h1 := hinv.tD_le
      have h2 := hinv.total_eq
      omega
    have hcp : countP m1.enriched = m1.rs.uniqueized := hinv.recs_path
    rw [phase2_eq_from]
    set st0 : P2State := ⟨m1.rs, [], m1.snaps, m1.calls⟩ with hst0
    have hb1 : st0.rs.published = st0.rs.uploaded := by
      show m1.rs.published = m1.rs.uploaded
      rw [hinv.pub0, hinv.upl0]
    have hb2 : st0.rs.uploaded + countP m1.enriched ≤ st0.rs.downloaded := by
      show m1.rs.uploaded + countP m1.enriched ≤ m1.rs.downloaded
      rw [hinv.upl0, hcp]
      omega
    have hb3 : st0.rs.downloaded ≤ st0.rs.total := hdt
    obtain ⟨hf1, hf2, hf3, hf4⟩ := phase2From_fixed m1.enriched 1 st0
    have hrd := phase2From_recsDone m1.enriched 1 st0
    have hcrt := phase2From_create m1.enriched 1 st0
    have hupl := phase2From_uploaded m1.enriched 1 st0
    have hpeq := phase2From_pub_eq m1.enriched 1 st0 hb1
    obtain ⟨extra, hsnaps, hextra⟩ :=
      phase2From_snaps m1.enriched 1 st0 hb1 hb2 hb3
    set stF := phase2From st0 1 m1.enriched with hstF
    have hupdown : stF.rs.uploaded ≤ stF.rs.downloaded := by
      calc stF.rs.uploaded ≤ st0.rs.uploaded + countP m1.enriched := hupl
        _ ≤ st0.rs.downloaded := hb2
        _ = stF.rs.downloaded := hf2.symm
    refine ⟨?_, ?_, ?_, hpeq, hupdown, ?_, ?_, ?_⟩
    · intro s hs
      have hs0 : s ∈ stF.snaps ++ [{ stF.rs with
          stage := Stage.done,
          messages := stF.rs.messages ++ [Msg.doneMsg] }] := hs
      rcases List.mem_append.1 hs0 with hs1 | hs1
      · rw [hsnaps] at hs1
        have hs1b : s ∈ m1.snaps ++ extra := hs1
        rcases List.mem_append.1 hs1b with hs2 | hs2
        · exact hinv.snaps_chain s hs2
        · obtain ⟨t1, t2, t3, t4⟩ := hextra s hs2
          exact ⟨t1, t2, t3⟩
      · have heq := List.mem_singleton.1 hs1
        subst heq
        exact ⟨hpeq, hupdown, by rw [hf2, hf1]; exact hb3⟩
    · show stF.rs.total = items.length
      rw [hf1]
      show m1.rs.total = items.length
      exact hinv.total_eq
    · intro s hs
      have hs0 : s ∈ (stF.snaps ++ [{ stF.rs with
          stage := Stage.done,
          messages := stF.rs.messages ++ [Msg.doneMsg] }]).drop 2 := hs
      rcases mem_drop_append hs0 with hs1 | hs1
      · rw [hsnaps] at hs1
        have hs1b : s ∈ (m1.snaps ++ extra).drop 2 := hs1
        rcases mem_drop_append hs1b with hs2 | hs2
        · exact hinv.snaps_total s hs2
        · obtain ⟨t1, t2, t3, t4⟩ := hextra s hs2
          rw [t4]
          show m1.rs.total = items.length
          exact hinv.total_eq
      · have heq := List.mem_singleton.1 hs1
        subst heq
        show stF.rs.total = items.length
        rw [hf1]
        show m1.rs.total = items.length
        exact hinv.total_eq
    · show stF.rs.downloaded ≤ stF.rs.total
      rw [hf2, hf1]
      exact hdt
    · show stF.calls.create = countP stF.recsDone
      have hrd2 : stF.recsDone = List.map finRec m1.enriched := by
        rw [hrd]
        show ([] : List Rec) ++ List.map finRec m1.enriched =
          List.map finRec m1.enriched
        simp
      have hcc : st0.calls.create = 0 := hinv.calls_create0
      rw [hrd2, countP_map_finRec, hcrt, hcc]
      omega
    · intro r hr
      have hrd2 : stF.recsDone = List.map finRec m1.enriched := by
        rw [hrd]
        show ([] : List Rec) ++ List.map finRec m1.enriched =
          List.map finRec m1.enriched
        simp
      have hr0 : r ∈ List.map finRec m1.enriched := by
        rw [← hrd2]
        exact hr
      obtain ⟨r0, hr1, rfl⟩ := List.mem_map.1 hr0
      obtain ⟨hst1, hst2⟩ := hinv.recs_status r0 hr1
      refine ⟨?_, ?_, ?_⟩
      · intro hnone
        rw [finRec_path] at hnone
        rw [finRec_none r0 hnone]
        exact hst2 hnone
      · intro hsome
        rw [finRec_path] at hsome
        obtain ⟨p, hp⟩ := Option.isSome_iff_exists.1 hsome
        cases hpr : pubResult r0.pubEnv (build_description r0.item) with
        | ok u =>
          cases u
          rw [finRec_some_ok r0 p hp hpr]
          exact Or.inl rfl
        | error e =>
          rw [finRec_some_err r0 p hp e hpr]
          exact Or.inr rfl
      · intro hsome e2 hcrerr
        rw [finRec_path] at hsome
        obtain ⟨p, hp⟩ := Option.isSome_iff_exists.1 hsome
        have hpe2 : (finRec r0).pubEnv = r0.pubEnv := by
          unfold finRec
          rw [hp]
          cases pubResult r0.pubEnv (build_description r0.item) with
          | ok _ => rfl
          | error e => rfl
        rw [hpe2] at hcrerr
        have hpr := pubResult_create_error r0.pubEnv
          (build_description r0.item) e2 hcrerr
        rw [finRec_some_err r0 p hp e2 hpr]
        exact ⟨rfl, rfl⟩

/-! ## C4 -/

/-- C4: at every progress snapshot emitted during a cycle the counter chain
`published ≤ uploaded ≤ downloaded ≤ total` holds; after the fetch completes
(that is, from the third snapshot on) `total` equals the number of candidates
fetched this cycle and is never modified afterwards, and the final state's
`total` still equals that count. -/
theorem c4_snapshot_invariants (items : List Item) (envs : List ItemEnv)
    (sched : List Nat) :
    (∀ s ∈ (run_cycle items envs sched).snaps,
      s.published ≤ s.uploaded ∧ s.uploaded ≤ s.downloaded ∧
        s.downloaded ≤ s.total) ∧
    (run_cycle items envs sched).final.total = items.length ∧
    (∀ s ∈ (run_cycle items envs sched).snaps.drop 2,
      s.total = items.length) := by
  obtain ⟨h1, h2, h3, _⟩ := run_cycle_spec items envs sched
  refine ⟨fun s hs => ?_, h2, h3⟩
  obtain ⟨t1, t2, t3⟩ := h1 s hs
  exact ⟨le_of_eq t1, t2, t3⟩

/-- C4 witness: the chain at the first snapshot of a concrete empty run. -/
theorem c4_witness :
    rsInit.published ≤ rsInit.uploaded ∧
    rsInit.uploaded ≤ rsInit.downloaded ∧
    rsInit.downloaded ≤ rsInit.total :=
  (c4_snapshot_invariants [] [] []).1 rsInit (by decide)

/-! ## C10 -/

/-- C10: at every progress snapshot `uploaded = published` — the two counters
are incremented together in one atomic step only after the whole publish
protocol succeeds for an item — and the final state agrees. -/
theorem c10_uploaded_eq_published (items : List Item) (envs : List ItemEnv)
    (sched : List Nat) :
    (∀ s ∈ (run_cycle items envs sched).snaps, s.uploaded = s.published) ∧
    (run_cycle items envs sched).final.uploaded =
      (run_cycle items envs sched).final.published := by
  obtain ⟨h1, _, _, h4, _⟩ := run_cycle_spec items envs sched
  exact ⟨fun s hs => ((h1 s hs).1).symm, h4.symm⟩

/-- C10 witness: equality at the first snapshot of a concrete empty run. -/
theorem c10_witness : rsInit.uploaded = rsInit.published :=
  (c10_uploaded_eq_published [] [] []).1 rsInit (by decide)

/-- C1 (amended): a failure in any step of the publish protocol — a rate-limit
error included — marks that item `upload_failed` and does not abort the run:
there is no sentinel detection, every item holding a transformed asset is
attempted (exactly one reserve call per such item, whatever happened to
earlier items), and items without an asset keep their phase-1 statuses. -/
theorem c1_publish_failures_do_not_abort (items : List Item)
    (envs : List ItemEnv) (sched : List Nat) :
    (run_cycle items envs sched).calls.create =
      countP (run_cycle items envs sched).recs ∧
    (∀ r ∈ (run_cycle items envs sched).recs,
      (r.path.isSome = true → r.status = Status.published ∨
        r.status = Status.upload_failed) ∧
      (r.path = none → r.status = Status.download_failed ∨
        r.status = Status.uniqueize_failed)) := by
  obtain ⟨_, _, _, _, _, _, h7, h8⟩ := run_cycle_spec items envs sched
  exact ⟨h7, fun r hr => ⟨(h8 r hr).2.1, (h8 r hr).1⟩⟩

/-- C1 witness: the amended theorem at the sentinel scenario's first record. -/
theorem c1_witness :
    (runSentinel.recs.get ⟨0, by decide⟩).status = Status.published ∨
    (runSentinel.recs.get ⟨0, by decide⟩).status = Status.upload_failed :=
  ((c1_publish_failures_do_not_abort [itemA, itemB]
      [envOk ("a.mp4") ("a_unique.mp4") sentinelEditPub,
        envOk ("b.mp4") ("b_unique.mp4") okPub] []).2
    (runSentinel.recs.get ⟨0, by decide⟩)
    (List.get_mem _ _ _)).1 (by decide)

/-- C2 (amended): the reserve call is made exactly once per asset-bearing
item, with no retry and no backoff; any reserve failure — the rate-limit
sentinel included — immediately marks the item `upload_failed` with the
captured error. -/
theorem c2_no_retry (items : List Item) (envs : List ItemEnv)
    (sched : List Nat) :
    (run_cycle items envs sched).calls.create =
      countP (run_cycle items envs sched).recs ∧
    (∀ r ∈ (run_cycle items envs sched).recs, r.path.isSome = true →
      ∀ e2, r.pubEnv.create 0 = Except.error e2 →
        r.status = Status.upload_failed ∧ r.err = some e2) := by
  obtain ⟨_, _, _, _, _, _, h7, h8⟩ := run_cycle_spec items envs sched
  exact ⟨h7, fun r hr hs e2 he => (h8 r hr).2.2 hs e2 he⟩

/-- C2 witness: the amended theorem at the one-sentinel retry scenario. -/
theorem c2_witness :
    (runRetry.recs.get ⟨0, by decide⟩).status = Status.upload_failed ∧
    (runRetry.recs.get ⟨0, by decide⟩).err =
      some ("VK API error: Too many requests per second") :=
  ((c2_no_retry [itemA] [envOk ("a.mp4") ("a_unique.mp4") retryCreatePub]
      []).2
    (runRetry.recs.get ⟨0, by decide⟩) (List.get_mem _ _ _) (by decide)
    ("VK API error: Too many requests per second") rfl)

/-! ## C9 -/

theorem stepItem_active_le (m : Machine) (i : Nat) (h : m.active ≤ 5)
    (he : enabledStep m i = true) : (stepItem m i).active ≤ 5 := by
  unfold stepItem
  cases hp : m.progs[i]? with
  | none => exact h
  | some prog =>
    cases prog with
    | nil =>
      cases m.ctx[i]? with
      | none => exact h
      | some t => exact h
    | cons s0 rest =>
      cases hc : m.ctx[i]? with
      | none => exact h
      | some t =>
        obtain ⟨idx, it, e⟩ := t
        simp only []
        cases s0 with
        | acquire =>
          have hlt : m.active < 5 := by
            unfold enabledStep at he
            rw [hp] at he
            exact of_decide_eq_true he
          show m.active + 1 ≤ 5
          omega
        | start => simpa [execStep, pushSnap] using h
        | dlFail => simpa [execStep, pushSnap] using h
        | dlOk => simpa [execStep, pushSnap] using h
        | uniqStep =>
          by_cases hu : e.uniq.failed = true
          · simpa [execStep, pushSnap, hu] using h
          · have hu2 : e.uniq.failed = false := by
              revert hu
              cases e.uniq.failed <;> simp
            simpa [execStep, pushSnap, hu2] using h
        | release =>
          show m.active - 1 ≤ 5
          omega

theorem sched_active_le (sched : List Nat) :
    ∀ m : Machine, Sched m sched → m.active ≤ 5 →
      ∀ m2 ∈ machinesAlong m sched, m2.active ≤ 5 := by
  induction sched with
  | nil =>
    intro m hs h m2 hm2
    have : m2 = m := List.mem_singleton.1 hm2
    subst this
    exact h
  | cons i rest ih =>
    intro m hs h m2 hm2
    cases hs with
    | cons m i rest he hs2 =>
      rcases List.mem_cons.1 hm2 with hm3 | hm3
      · subst hm3
        exact h
      · exact ih (stepItem m i) hs2 (stepItem_active_le m i h he) m2 hm3

/-- C9: under the semaphore semantics no admissible interleaving ever has more
than 5 tasks holding a permit, and every per-item program acquires its permit
as its first step and releases it as its last, on the failure paths included. -/
theorem c9_semaphore_bound :
    (∀ (items : List Item) (envs : List ItemEnv) (rs : RunState)
        (snaps : List RunState) (sched : List Nat),
      Sched (mkMachine items envs rs snaps) sched →
      ∀ m2 ∈ machinesAlong (mkMachine items envs rs snaps) sched,
        m2.active ≤ 5) ∧
    (∀ e : ItemEnv, (progOf e).head? = some Step.acquire ∧
      (progOf e).getLast? = some Step.release) := by
  constructor
  · intro items envs rs snaps sched hs m2 hm2
    refine sched_active_le sched _ hs ?_ m2 hm2
    show (0 : Nat) ≤ 5
    decide
  · intro e
    unfold progOf
    split
    · exact ⟨rfl, by decide⟩
    · exact ⟨rfl, by decide⟩

/-- C9 witness: one admissible schedule step on a concrete machine, plus the
program-shape fact at a concrete environment. -/
theorem c9_witness :
    (mkMachine [itemA] [envOk ("a.mp4") ("a_unique.mp4") okPub]
      (rsFound 1) []).active ≤ 5 ∧
    (progOf (envOk ("a.mp4") ("a_unique.mp4") okPub)).head? =
      some Step.acquire :=
  ⟨(c9_semaphore_bound.1 [itemA] [envOk ("a.mp4") ("a_unique.mp4") okPub]
      (rsFound 1) [] [0]
      (Sched.cons _ 0 [] (by decide) (Sched.nil _))
      _ (List.mem_cons_self _ _)),
    (c9_semaphore_bound.2 (envOk ("a.mp4") ("a_unique.mp4") okPub)).1⟩

/-! ## C6 -/

/-- C6 counterexample: feeding the builder's output back through the item's
text field does not reproduce it — the second pass re-extracts the generated
tag's tokens as separate hashtags. -/
theorem c6_counterexample :
    build_description (refeed (build_description itemA) itemA.owner_id
        itemA.id) ≠ build_description itemA := by
  decide


/-! ### String-pipeline lemmas for the description builder -/

theorem wordsAux_append_ws (c0 : Char) (hc : c0.isWhitespace = true)
    (xs : List Char) : ∀ (acc ys : List Char),
    wordsAux (xs ++ c0 :: ys) acc = wordsAux xs acc ++ wordsAux ys [] := by
  induction xs with
  | nil =>
    intro acc ys
    cases hacc : acc.isEmpty <;> simp [wordsAux, hc, hacc]
  | cons c cs ih =>
    intro acc ys
    by_cases hwc : c.isWhitespace = true <;> by_cases hacc : acc.isEmpty <;>
      simp [wordsAux, hwc, hacc, ih]

theorem pyWords_append_ws (c0 : Char) (hc : c0.isWhitespace = true)
    (x y : List Char) : pyWords (x ++ c0 :: y) = pyWords x ++ pyWords y :=
  wordsAux_append_ws c0 hc x [] y

theorem wordsAux_nonws (w : List Char) : ∀ acc : List Char,
    (∀ c ∈ w, c.isWhitespace = false) →
    wordsAux w acc =
      if (acc.reverse ++ w).isEmpty then [] else [acc.reverse ++ w] := by
  induction w with
  | nil =>
    intro acc _
    cases acc <;> simp [wordsAux]
  | cons c w ih =>
    intro acc h
    have hc : c.isWhitespace = false := h c (List.mem_cons_self c w)
    have hrest : ∀ c2 ∈ w, c2.isWhitespace = false :=
      fun c2 hc2 => h c2 (List.mem_cons_of_mem c hc2)
    simp only [wordsAux, hc, Bool.false_eq_true, if_false]
    rw [ih (c :: acc) hrest]
    have hne : (acc.reverse ++ c :: w).isEmpty = false := by
      cases hr : acc.reverse <;> simp
    have hr2 : (c :: acc).reverse ++ w = acc.reverse ++ c :: w := by
      simp
    rw [hr2, hne]

theorem pyWords_single (w : List Char) (hne : w ≠ [])
    (h : ∀ c ∈ w, c.isWhitespace = false) : pyWords w = [w] := by
  unfold pyWords
  rw [wordsAux_nonws w [] h]
  cases w with
  | nil => exact absurd rfl hne
  | cons c t => simp

theorem wordsAux_tokens (s : List Char) : ∀ acc : List Char,
    (∀ c ∈ acc, c.isWhitespace = false) →
    ∀ w ∈ wordsAux s acc, w ≠ [] ∧ ∀ c ∈ w, c.isWhitespace = false := by
  induction s with
  | nil =>
    intro acc hacc w hw
    cases hacc2 : acc.isEmpty with
    | true => simp [wordsAux, hacc2] at hw
    | false =>
      simp only [wordsAux, hacc2, Bool.false_eq_true, if_false,
        List.mem_singleton] at hw
      subst hw
      constructor
      · intro hx
        have : acc = [] := by
          have := congrArg List.reverse hx
          simpa using this
        rw [this] at hacc2
        simp at hacc2
      · intro c hcm
        exact hacc c (List.mem_reverse.1 hcm)
  | cons c cs ih =>
    intro acc hacc w hw
    by_cases hwc : c.isWhitespace = true
    · cases hacc2 : acc.isEmpty with
      | true =>
        rw [wordsAux, if_pos hwc, hacc2] at hw
        simp only [if_true] at hw
        exact ih [] (by simp) w hw
      | false =>
        rw [wordsAux, if_pos hwc, hacc2] at hw
        simp only [Bool.false_eq_true, if_false, List.mem_cons] at hw
        rcases hw with rfl | hw
        · constructor
          · intro hx
            have : acc = [] := by
              have := congrArg List.reverse hx
              simpa using this
            rw [this] at hacc2
            simp at hacc2
          · intro c2 hcm
            exact hacc c2 (List.mem_reverse.1 hcm)
        · exact ih [] (by simp) w hw
    · have hwc2 : c.isWhitespace = false := by
        revert hwc
        cases c.isWhitespace <;> simp
      rw [wordsAux, if_neg hwc] at hw
      refine ih (c :: acc) ?_ w hw
      intro c2 hc2
      rcases List.mem_cons.1 hc2 with rfl | hc3
      · exact hwc2
      · exact hacc c2 hc3

theorem hashtagTokens_good (s : List Char) :
    ∀ w ∈ hashtagTokens s, goodTok w := by
  intro w hw
  unfold hashtagTokens at hw
  have hm := List.mem_filter.1 hw
  obtain ⟨h1, h2⟩ := wordsAux_tokens s [] (by simp) w hm.1
  exact ⟨h1, h2, of_decide_eq_true hm.2⟩

theorem sepStr_shape : sepStr.data = ' ' :: (midTok ++ [' ']) := by decide

theorem pyWords_sep (x y : List Char) :
    pyWords (x ++ sepStr.data ++ y) = pyWords x ++ [midTok] ++ pyWords y := by
  have hshape : x ++ sepStr.data ++ y = x ++ ' ' :: (midTok ++ ' ' :: y) := by
    rw [sepStr_shape]
    simp
  rw [hshape, pyWords_append_ws ' ' (by decide) x (midTok ++ ' ' :: y),
    pyWords_append_ws ' ' (by decide) midTok y]
  have hmid : pyWords midTok = [midTok] := by decide
  rw [hmid]
  simp

theorem hashtagTokens_sep (x y : List Char) :
    hashtagTokens (x ++ sepStr.data ++ y) =
      hashtagTokens x ++ hashtagTokens y := by
  unfold hashtagTokens
  rw [pyWords_sep]
  rw [List.filter_append, List.filter_append]
  have hmid : List.filter (fun w => w.head? = some '#') [midTok] = [] := by
    decide
  rw [hmid]
  simp

theorem intercalate_single {α : Type} (sep : List α) (z : List α) :
    List.intercalate sep [z] = z := by
  simp [List.intercalate, List.intersperse]

theorem intercalate_cons_ne {α : Type} (sep a : List α) (l : List (List α))
    (h : l ≠ []) :
    List.intercalate sep (a :: l) = a ++ sep ++ List.intercalate sep l := by
  cases l with
  | nil => exact absurd rfl h
  | cons b t =>
    simp [List.intercalate, List.intersperse]

theorem hashtagTokens_single (w : List Char) (h : goodTok w) :
    hashtagTokens w = [w] := by
  obtain ⟨h1, h2, h3⟩ := h
  unfold hashtagTokens
  rw [pyWords_single w h1 h2]
  simp [h3]

theorem hashtagTokens_join_aux (L : List (List Char)) :
    (∀ w ∈ L, goodTok w) → ∀ z : List Char,
    hashtagTokens (List.intercalate sepStr.data (L ++ [z])) =
      L ++ hashtagTokens z := by
  induction L with
  | nil =>
    intro _ z
    rw [List.nil_append, intercalate_single]
    simp
  | cons w L ih =>
    intro hL z
    have hne : L ++ [z] ≠ [] := by simp
    rw [List.cons_append, intercalate_cons_ne sepStr.data w (L ++ [z]) hne,
      hashtagTokens_sep,
      hashtagTokens_single w (hL w (List.mem_cons_self w L)),
      ih (fun w2 hw2 => hL w2 (List.mem_cons_of_mem w hw2)) z]
    simp

theorem hashtagTokens_promo : hashtagTokens promoStr.data = [] := by decide

/-- Hashtag tokens of a freshly built description: the promo contributes
nothing, the deduplicated hashtag list survives verbatim, and the generated
tag contributes its own hashtag words. -/
theorem hashtagTokens_join (L : List (List Char)) (hL : ∀ w ∈ L, goodTok w)
    (z : List Char) :
    hashtagTokens (List.intercalate sepStr.data
        (promoStr.data :: L ++ [z])) = L ++ hashtagTokens z := by
  have hne : L ++ [z] ≠ [] := by simp
  rw [List.cons_append,
    intercalate_cons_ne sepStr.data promoStr.data (L ++ [z]) hne,
    hashtagTokens_sep, hashtagTokens_promo, hashtagTokens_join_aux L hL z]
  simp

theorem dedupFirstAux_congr {α : Type} [DecidableEq α] (l : List α) :
    ∀ s1 s2 : List α, (∀ x ∈ l, (x ∈ s1 ↔ x ∈ s2)) →
      dedupFirstAux s1 l = dedupFirstAux s2 l := by
  induction l with
  | nil => intro s1 s2 _; rfl
  | cons a l ih =>
    intro s1 s2 h
    have ha := h a (List.mem_cons_self a l)
    by_cases h1 : a ∈ s1
    · have h2 : a ∈ s2 := ha.1 h1
      simp only [dedupFirstAux, if_pos h1, if_pos h2]
      exact ih s1 s2 (fun x hx => h x (List.mem_cons_of_mem a hx))
    · have h2 : a ∉ s2 := fun hx => h1 (ha.2 hx)
      simp only [dedupFirstAux, if_neg h1, if_neg h2]
      rw [ih (a :: s1) (a :: s2) ?_]
      intro x hx
      have := h x (List.mem_cons_of_mem a hx)
      simp [List.mem_cons, this]

theorem dedupFirstAux_cons_mem {α : Type} [DecidableEq α] {a : α}
    {s : List α} (l : List α) (h : a ∈ s) :
    dedupFirstAux s (a :: l) = dedupFirstAux s l := by
  simp [dedupFirstAux, h]

theorem dedupFirstAux_cons_not_mem {α : Type} [DecidableEq α] {a : α}
    {s : List α} (l : List α) (h : a ∉ s) :
    dedupFirstAux s (a :: l) = a :: dedupFirstAux (a :: s) l := by
  simp [dedupFirstAux, h]

theorem dedupFirstAux_append {α : Type} [DecidableEq α] (l1 l2 : List α) :
    ∀ s : List α, dedupFirstAux s (l1 ++ l2) =
      dedupFirstAux s l1 ++ dedupFirstAux (l1 ++ s) l2 := by
  induction l1 with
  | nil => intro s; simp [dedupFirstAux]
  | cons a l1 ih =>
    intro s
    rw [List.cons_append]
    by_cases h1 : a ∈ s
    · rw [dedupFirstAux_cons_mem _ h1, dedupFirstAux_cons_mem _ h1, ih s]
      congr 1
      apply dedupFirstAux_congr
      intro x _
      constructor
      · intro hx
        rcases List.mem_append.1 hx with hx | hx
        · exact List.mem_append_left _ (List.mem_cons_of_mem a hx)
        · exact List.mem_append_right _ hx
      · intro hx
        rcases List.mem_append.1 hx with hx | hx
        · rcases List.mem_cons.1 hx with rfl | hx
          · exact List.mem_append_right _ h1
          · exact List.mem_append_left _ hx
        · exact List.mem_append_right _ hx
    · rw [dedupFirstAux_cons_not_mem _ h1, dedupFirstAux_cons_not_mem _ h1,
        ih (a :: s), List.cons_append]
      congr 2
      apply dedupFirstAux_congr
      intro x _
      constructor
      · intro hx
        rcases List.mem_append.1 hx with hx | hx
        · exact List.mem_cons_of_mem a (List.mem_append_left _ hx)
        · rcases List.mem_cons.1 hx with rfl | hx
          · exact List.mem_cons_self _ _
          · exact List.mem_cons_of_mem a (List.mem_append_right _ hx)
      · intro hx
        rcases List.mem_cons.1 hx with rfl | hx
        · exact List.mem_append_right _ (List.mem_cons_self _ _)
        · rcases List.mem_append.1 hx with hx | hx
          · exact List.mem_append_left _ hx
          · exact List.mem_append_right _ (List.mem_cons_of_mem a hx)

theorem dedupFirstAux_nil_of_subset {α : Type} [DecidableEq α]
    (l : List α) : ∀ s : List α, (∀ x ∈ l, x ∈ s) →
      dedupFirstAux s l = [] := by
  induction l with
  | nil => intro s _; rfl
  | cons a l ih =>
    intro s h
    have ha : a ∈ s := h a (List.mem_cons_self a l)
    simp only [dedupFirstAux, if_pos ha]
    exact ih s (fun x hx => h x (List.mem_cons_of_mem a hx))

theorem mem_dedupFirstAux {α : Type} [DecidableEq α] (l : List α) :
    ∀ (s : List α) (x : α),
      x ∈ dedupFirstAux s l ↔ (x ∈ l ∧ x ∉ s) := by
  induction l with
  | nil => intro s x; simp [dedupFirstAux]
  | cons a l ih =>
    intro s x
    by_cases h1 : a ∈ s
    · rw [dedupFirstAux, if_pos h1, ih s x]
      constructor
      · intro ⟨hx1, hx2⟩
        exact ⟨List.mem_cons_of_mem a hx1, hx2⟩
      · intro ⟨hx1, hx2⟩
        rcases List.mem_cons.1 hx1 with rfl | hx1
        · exact absurd h1 hx2
        · exact ⟨hx1, hx2⟩
    · rw [dedupFirstAux, if_neg h1]
      constructor
      · intro hx
        rcases List.mem_cons.1 hx with rfl | hx
        · exact ⟨List.mem_cons_self _ _, h1⟩
        · obtain ⟨h2, h3⟩ := (ih (a :: s) x).1 hx
          refine ⟨List.mem_cons_of_mem a h2, fun hs => h3 ?_⟩
          exact List.mem_cons_of_mem a hs
      · intro ⟨hx1, hx2⟩
        rcases List.mem_cons.1 hx1 with rfl | hx1
        · exact List.mem_cons_self _ _
        · by_cases hxa : x = a
          · subst hxa
            exact List.mem_cons_self _ _
          · refine List.mem_cons_of_mem a ((ih (a :: s) x).2 ⟨hx1, ?_⟩)
            intro hs
            rcases List.mem_cons.1 hs with h | h
            · exact hxa h
            · exact hx2 h

theorem mem_dedupFirst {α : Type} [DecidableEq α] (l : List α) (x : α) :
    x ∈ dedupFirst l ↔ x ∈ l := by
  unfold dedupFirst
  rw [mem_dedupFirstAux]
  simp

theorem dedupFirstAux_nodup {α : Type} [DecidableEq α] (l : List α) :
    ∀ s : List α, (dedupFirstAux s l).Nodup := by
  induction l with
  | nil => intro s; exact List.nodup_nil
  | cons a l ih =>
    intro s
    by_cases h1 : a ∈ s
    · rw [dedupFirstAux, if_pos h1]
      exact ih s
    · rw [dedupFirstAux, if_neg h1]
      refine List.nodup_cons.2 ⟨?_, ih (a :: s)⟩
      intro hx
      obtain ⟨_, h3⟩ := (mem_dedupFirstAux l (a :: s) a).1 hx
      exact h3 (List.mem_cons_self _ _)

theorem dedupFirstAux_of_nodup {α : Type} [DecidableEq α] (l : List α) :
    ∀ s : List α, l.Nodup → (∀ x ∈ l, x ∉ s) →
      dedupFirstAux s l = l := by
  induction l with
  | nil => intro s _ _; rfl
  | cons a l ih =>
    intro s hnd hs
    obtain ⟨ha, hnd2⟩ := List.nodup_cons.1 hnd
    rw [dedupFirstAux, if_neg (hs a (List.mem_cons_self a l))]
    congr 1
    refine ih (a :: s) hnd2 ?_
    intro x hx
    intro hmem
    rcases List.mem_cons.1 hmem with rfl | h
    · exact ha hx
    · exact hs x (List.mem_cons_of_mem a hx) h

theorem dedupFirst_idem {α : Type} [DecidableEq α] (l : List α) :
    dedupFirst (dedupFirst l) = dedupFirst l :=
  dedupFirstAux_of_nodup _ [] (dedupFirstAux_nodup l []) (by simp)

theorem dedupFirst_append_subset {α : Type} [DecidableEq α]
    (l1 l2 : List α) (h : ∀ x ∈ l2, x ∈ l1) :
    dedupFirst (l1 ++ l2) = dedupFirst l1 := by
  unfold dedupFirst
  rw [dedupFirstAux_append l1 l2 []]
  rw [dedupFirstAux_nil_of_subset l2 (l1 ++ []) ?_]
  · simp
  · intro x hx
    simpa using h x hx

theorem dedupFirst_parts {α : Type} [DecidableEq α] (p t : α)
    (L : List α) (hp : p ∉ L) (ht : t ∉ L) (htp : t ≠ p) :
    dedupFirst (p :: L ++ [t]) = p :: dedupFirst L ++ [t] := by
  unfold dedupFirst
  rw [show (p :: L ++ [t] : List α) = p :: (L ++ [t]) from rfl,
    dedupFirstAux_cons_not_mem _ (List.not_mem_nil p),
    dedupFirstAux_append L [t] [p]]
  congr 1
  congr 1
  · apply dedupFirstAux_congr
    intro x hx
    simp only [List.mem_singleton, List.not_mem_nil, iff_false]
    intro hm
    subst hm
    exact hp hx
  · rw [dedupFirstAux_cons_not_mem _ ?_]
    · rfl
    · intro hm
      rcases List.mem_append.1 hm with hm | hm
      · exact ht hm
      · exact htp (List.mem_singleton.1 hm)

theorem strData_append (a b : String) : (a ++ b).data = a.data ++ b.data := rfl

theorem wordsAux_all_ws : ∀ s : List Char,
    (∀ c ∈ s, c.isWhitespace = true) → wordsAux s [] = [] := by
  intro s
  induction s with
  | nil => intro _; rfl
  | cons c cs ih =>
    intro h
    have hc := h c (List.mem_cons_self c cs)
    simp [wordsAux, hc]
    exact ih (fun c2 hc2 => h c2 (List.mem_cons_of_mem c hc2))

theorem fieldHashtags_some (s : String) :
    fieldHashtags (some s) = hashtagTokens s.data := by
  show (if (s.data.any fun c => !c.isWhitespace) = true
      then hashtagTokens s.data else []) = hashtagTokens s.data
  by_cases h : s.data.any (fun c => !c.isWhitespace) = true
  · rw [if_pos h]
  · rw [if_neg h]
    have hws : ∀ c ∈ s.data, c.isWhitespace = true := by
      intro c hc
      by_contra hcw
      refine h (List.any_eq_true.2 ⟨c, hc, ?_⟩)
      revert hcw
      cases c.isWhitespace <;> simp
    symm
    unfold hashtagTokens pyWords
    rw [wordsAux_all_ws s.data hws]
    rfl

theorem fieldHashtags_good (f : Option String) :
    ∀ w ∈ fieldHashtags f, goodTok w := by
  cases f with
  | none => intro w hw; simp [fieldHashtags] at hw
  | some s =>
    rw [fieldHashtags_some]
    exact hashtagTokens_good s.data

theorem promo_not_good : ¬ goodTok promoStr.data := by
  intro h
  exact absurd (h.2.1 ' ' (by decide)) (by decide)

theorem vkTag_not_good (o v : Int) : ¬ goodTok (vkTag o v).data := by
  intro h
  have hmem : ' ' ∈ (vkTag o v).data := by
    simp only [vkTag, strData_append]
    exact List.mem_append_left _ (List.mem_append_left _
      (List.mem_append_left _ (by decide)))
  exact absurd (h.2.1 ' ' hmem) (by decide)

theorem vkTag_ne_promo (o v : Int) : (vkTag o v).data ≠ promoStr.data := by
  intro h
  have h1 : (vkTag o v).data.head? = some '#' := by
    simp only [vkTag, strData_append]
    rfl
  rw [h] at h1
  exact absurd h1 (by decide)

theorem middle_good (item : Item) :
    ∀ w ∈ fieldHashtags item.description ++ fieldHashtags item.title ++
      fieldHashtags item.caption ++ fieldHashtags item.text, goodTok w := by
  intro w hw
  simp only [List.mem_append] at hw
  rcases hw with ((hw | hw) | hw) | hw <;> exact fieldHashtags_good _ w hw

theorem dedup_parts_good (HH : List (List Char))
    (hH : ∀ w ∈ HH, goodTok w) (o v : Int) :
    dedupFirst (promoStr.data :: HH ++ [(vkTag o v).data]) =
      promoStr.data :: dedupFirst HH ++ [(vkTag o v).data] :=
  dedupFirst_parts _ _ _ (fun h => promo_not_good (hH _ h))
    (fun h => vkTag_not_good o v (hH _ h)) (vkTag_ne_promo o v)

theorem build_description_eq_raw (item : Item) :
    build_description item = String.mk ((rawDescription item).take 999) := rfl

theorem descParts_refeed (s : String) (o v : Int) :
    descParts (refeed s o v) =
      promoStr.data :: hashtagTokens s.data ++ [(vkTag o v).data] := by
  have hnone : fieldHashtags none = [] := rfl
  simp [descParts, refeed, fieldHashtags_some, hnone]

/-- C6: corrected. The builder's output always fits in 999 characters, and
while a single re-application is not idempotent (the deduplicated hashtag
list is prepended once more), the output stabilizes from the second
application on: feeding the second output back through the builder
reproduces it exactly, whenever the 999-character truncation is inactive on
the first two passes. -/
theorem c6_stabilizes (item : Item)
    (h1 : (rawDescription item).length ≤ 999)
    (h2 : (rawDescription (refeed (build_description item)
        item.owner_id item.id)).length ≤ 999) :
    (build_description item).length ≤ 999 ∧
    build_description (refeed (build_description (refeed
        (build_description item) item.owner_id item.id))
        item.owner_id item.id) =
      build_description (refeed (build_description item)
        item.owner_id item.id) := by
  constructor
  · rw [build_description_eq_raw]
    show ((rawDescription item).take 999).length ≤ 999
    rw [List.length_take]
    exact min_le_left _ _
  · obtain ⟨HH, hHgood, hparts⟩ : ∃ HH : List (List Char),
        (∀ w ∈ HH, goodTok w) ∧ descParts item =
          promoStr.data :: HH ++ [(vkTag item.owner_id item.id).data] :=
      ⟨_, middle_good item, rfl⟩
    have hraw1 : rawDescription item = List.intercalate sepStr.data
        (promoStr.data :: dedupFirst HH ++
          [(vkTag item.owner_id item.id).data]) := by
      unfold rawDescription
      rw [hparts, dedup_parts_good HH hHgood]
    have hs1 : (build_description item).data = rawDescription item := by
      rw [build_description_eq_raw]
      exact List.take_of_length_le h1
    have hTgood := hashtagTokens_good (vkTag item.owner_id item.id).data
    have htok1 : hashtagTokens (build_description item).data =
        dedupFirst HH ++
          hashtagTokens (vkTag item.owner_id item.id).data := by
      rw [hs1, hraw1]
      exact hashtagTokens_join (dedupFirst HH)
        (fun w hw => hHgood w ((mem_dedupFirst HH w).1 hw)) _
    have hL2good : ∀ w ∈ dedupFirst HH ++
        hashtagTokens (vkTag item.owner_id item.id).data, goodTok w := by
      intro w hw
      rcases List.mem_append.1 hw with hw | hw
      · exact hHgood w ((mem_dedupFirst HH w).1 hw)
      · exact hTgood w hw
    have hparts2 : descParts (refeed (build_description item)
          item.owner_id item.id) =
        promoStr.data :: (dedupFirst HH ++
          hashtagTokens (vkTag item.owner_id item.id).data) ++
          [(vkTag item.owner_id item.id).data] := by
      rw [descParts_refeed, htok1]
    have hraw2 : rawDescription (refeed (build_description item)
          item.owner_id item.id) =
        List.intercalate sepStr.data (promoStr.data ::
          dedupFirst (dedupFirst HH ++
            hashtagTokens (vkTag item.owner_id item.id).data) ++
          [(vkTag item.owner_id item.id).data]) := by
      unfold rawDescription
      rw [hparts2, dedup_parts_good _ hL2good]
    have hs2 : (build_description (refeed (build_description item)
          item.owner_id item.id)).data =
        rawDescription (refeed (build_description item)
          item.owner_id item.id) := by
      rw [build_description_eq_raw]
      exact List.take_of_length_le h2
    have hEgood : ∀ w ∈ dedupFirst (dedupFirst HH ++
        hashtagTokens (vkTag item.owner_id item.id).data), goodTok w :=
      fun w hw => hL2good w ((mem_dedupFirst _ w).1 hw)
    have htok2 : hashtagTokens (build_description (refeed
          (build_description item) item.owner_id item.id)).data =
        dedupFirst (dedupFirst HH ++
          hashtagTokens (vkTag item.owner_id item.id).data) ++
          hashtagTokens (vkTag item.owner_id item.id).data := by
      rw [hs2, hraw2]
      exact hashtagTokens_join _ hEgood _
    have hparts3 : descParts (refeed (build_description (refeed
          (build_description item) item.owner_id item.id))
          item.owner_id item.id) =
        promoStr.data :: (dedupFirst (dedupFirst HH ++
          hashtagTokens (vkTag item.owner_id item.id).data) ++
          hashtagTokens (vkTag item.owner_id item.id).data) ++
          [(vkTag item.owner_id item.id).data] := by
      rw [descParts_refeed, htok2]
    have hL3good : ∀ w ∈ dedupFirst (dedupFirst HH ++
        hashtagTokens (vkTag item.owner_id item.id).data) ++
        hashtagTokens (vkTag item.owner_id item.id).data, goodTok w := by
      intro w hw
      rcases List.mem_append.1 hw with hw | hw
      · exact hEgood w hw
      · exact hTgood w hw
    have hsub : ∀ x ∈ hashtagTokens (vkTag item.owner_id item.id).data,
        x ∈ dedupFirst (dedupFirst HH ++
          hashtagTokens (vkTag item.owner_id item.id).data) :=
      fun x hx => (mem_dedupFirst _ x).2 (List.mem_append_right _ hx)
    have hET : dedupFirst (dedupFirst (dedupFirst HH ++
          hashtagTokens (vkTag item.owner_id item.id).data) ++
          hashtagTokens (vkTag item.owner_id item.id).data) =
        dedupFirst (dedupFirst HH ++
          hashtagTokens (vkTag item.owner_id item.id).data) := by
      rw [dedupFirst_append_subset _ _ hsub, dedupFirst_idem]
    have hraw3 : rawDescription (refeed (build_description (refeed
          (build_description item) item.owner_id item.id))
          item.owner_id item.id) =
        rawDescription (refeed (build_description item)
          item.owner_id item.id) := by
      unfold rawDescription
      rw [hparts3, dedup_parts_good _ hL3good, hET,
        hparts2, dedup_parts_good _ hL2good]
    conv_lhs => rw [build_description_eq_raw]
    conv_rhs => rw [build_description_eq_raw]
    rw [hraw3]

theorem c6_witness :
    (rawDescription itemC).length ≤ 999 ∧
    (rawDescription (refeed (build_description itemC)
      itemC.owner_id itemC.id)).length ≤ 999 ∧
    ((build_description itemC).length ≤ 999 ∧
     build_description (refeed (build_description (refeed
        (build_description itemC) itemC.owner_id itemC.id))
        itemC.owner_id itemC.id) =
      build_description (refeed (build_description itemC)
        itemC.owner_id itemC.id)) :=
  ⟨by decide, by decide, c6_stabilizes itemC (by decide) (by decide)⟩

end VkClips
